import Mathlib

/-!
Verification of the parson JSON library (src/parson.c) against its
natural-language specification.

Modelling conventions, used throughout:

* C strings are modelled as `List Nat` of byte values.  The NUL terminator is
  not stored: the end of the list is the terminator.  Where C code reads a
  buffer through `strlen`-style interfaces, the model truncates the list at
  its first 0 byte (`cstr`), which is exactly what the rest of the C code can
  observe of such a buffer.
* C `double` values are modelled as exact rationals (`ℚ`).  The composition
  `strtod ∘ sprintf "%1.17g"` is the identity on finite doubles (17
  significant decimal digits determine a double), and the model realises the
  same composition-identity by keeping values exact; IEEE rounding and
  `errno`/`ERANGE` range errors are abstracted away.  Every finite double is
  a dyadic rational, hence has a finite decimal expansion; the predicate
  `number_printable` marks the rationals with that property.
* Dynamic allocation always succeeds in the model (allocation-failure paths
  of the C code are not modelled), and capacity/geometric-growth bookkeeping
  (`STARTING_CAPACITY`, `json_object_resize` on success paths) is dropped:
  only `count`-many stored entries are observable.
* The recursive C functions are modelled with an explicit fuel parameter
  (first argument) so that every definition is executable and total.  The
  public entry points supply fuel that is ample for the recursion depth of
  the C code (which is bounded by the input length for the parser, and by
  the tree size for the serializer and `json_value_equals`).
-/

/-- MAX_NESTING from parson.c line 46: the depth bound checked by `parse_value`. -/
def MAX_NESTING : Nat := 2048

/-- The observable content of a C string buffer: the bytes up to (excluding)
the first NUL.  Models reading a `char*` via `strlen`/`strcmp` etc. -/
def cstr (s : List Nat) : List Nat := s.takeWhile (fun b => b ≠ 0)

/-- `strlen` on the modelled buffer. -/
def cstrlen (s : List Nat) : Nat := (cstr s).length

/-- `isspace` in the C locale: space, \t, \n, \v, \f, \r. -/
def is_space_byte (b : Nat) : Bool := b = 32 || (9 ≤ b && b ≤ 13)

/-- SKIP_WHITESPACES from parson.c line 53. -/
def skip_whitespaces (s : List Nat) : List Nat := s.dropWhile is_space_byte

/-- hex_char_to_int from parson.c lines 214-223 (-1 on a non-hex byte). -/
def hex_char_to_int (c : Nat) : Int :=
  if 48 ≤ c ∧ c ≤ 57 then (c : Int) - 48
  else if 97 ≤ c ∧ c ≤ 102 then (c : Int) - 97 + 10
  else if 65 ≤ c ∧ c ≤ 70 then (c : Int) - 65 + 10
  else -1

/-- parse_utf16_hex from parson.c lines 235-249, specialised to the four hex
bytes (the C NUL-checks on `s[0..3]` become the caller's pattern match on
list length). -/
def parse_utf16_hex (a b c d : Nat) : Option Nat :=
  let x1 := hex_char_to_int a
  let x2 := hex_char_to_int b
  let x3 := hex_char_to_int c
  let x4 := hex_char_to_int d
  if x1 = -1 ∨ x2 = -1 ∨ x3 = -1 ∨ x4 = -1 then none
  else some (x1.toNat * 4096 + x2.toNat * 256 + x3.toNat * 16 + x4.toNat)

/-- is_decimal from parson.c lines 320-333: rejects a leading zero not
followed by `.`, a `-0` not followed by `.`, and any `x`/`X` byte. -/
def is_decimal (s : List Nat) : Bool :=
  match s with
  | 48 :: b :: _ => if b ≠ 46 then false else !(s.any fun c => c = 120 || c = 88)
  | 45 :: 48 :: b :: _ => if b ≠ 46 then false else !(s.any fun c => c = 120 || c = 88)
  | _ => !(s.any fun c => c = 120 || c = 88)

/-- The JSON tree type of parson (struct json_value_t, lines 85-119): the
tagged union over null / boolean / number / string / array / object.  The
`parent` back-pointer is not part of the pure tree (it is modelled separately
for the attach-guard API, see `AttValue`).  Numbers are exact rationals (see
the header comment), strings and object keys are C strings as `List Nat`. -/
inductive JValue : Type where
  | null : JValue
  | boolean : Bool → JValue
  | number : ℚ → JValue
  | string : List Nat → JValue
  | array : List JValue → JValue
  | object : List (List Nat × JValue) → JValue

/-- Byte list of a Lean string literal (for readable concrete test inputs). -/
def strBytes (s : String) : List Nat := s.data.map Char.toNat

/-! ## Decimal digit printing and reading -/

/-- Digit run of `n` in base 10, most significant first, as ASCII bytes.
Fueled so that it is structural (`natDigits` supplies ample fuel). -/
def natDigitsAux : Nat → Nat → List Nat
  | 0, _ => []
  | fuel + 1, n => if n < 10 then [48 + n] else natDigitsAux fuel (n / 10) ++ [48 + n % 10]

/-- ASCII decimal digits of `n`, no leading zeros (`0` prints as `"0"`). -/
def natDigits (n : Nat) : List Nat := natDigitsAux (n + 1) n

/-- Is an ASCII decimal digit byte. -/
def is_digit_byte (b : Nat) : Bool := 48 ≤ b && b ≤ 57

/-- Value of a run of decimal digit bytes (most significant first). -/
def natOfDigits (ds : List Nat) : Nat := ds.foldl (fun acc d => acc * 10 + (d - 48)) 0

/-- Largest `e` with `p^e ∣ n` (for `1 < p`, `0 < n`); fueled helper. -/
def pFactorAux : Nat → Nat → Nat → Nat
  | 0, _, _ => 0
  | fuel + 1, p, n => if n % p = 0 ∧ n ≠ 0 ∧ 1 < p then pFactorAux fuel p (n / p) + 1 else 0

/-- Multiplicity of the prime `p` in `n`. -/
def pFactor (p n : Nat) : Nat := pFactorAux n p n

/-- A rational has a finite decimal expansion iff its (reduced) denominator
divides a power of ten.  Holds for every IEEE double (dyadic denominator), so
it is exactly the image of the C `double` payloads under the model. -/
def number_printable (q : ℚ) : Bool :=
  decide (q.den ∣ 10 ^ (max (pFactor 2 q.den) (pFactor 5 q.den)))

/-- Digits of `m` with a decimal point `k` places from the right
(`m = 2305, k = 2` prints `23.05`; `k = 0` prints the plain digit run). -/
def digitsWithPoint (m k : Nat) : List Nat :=
  if k = 0 then natDigits m
  else
    natDigits (m / 10 ^ k) ++ [46] ++
      (List.replicate (k - (natDigits (m % 10 ^ k)).length) 48 ++ natDigits (m % 10 ^ k))

/-- Model of `sprintf(num_buf, "%1.17g", num)` (parson.c line 1313) under the
exact-rational abstraction of doubles: the exact plain-decimal expansion when
the denominator is 10-smooth — every C double is, since doubles are dyadic —
and a 30-fractional-digit truncation otherwise (that branch is unreachable
from modelled doubles; it only keeps the function total on all of `ℚ`).
The C format rounds to 17 significant digits, which `strtod` maps back to the
same double; printing exactly realises the same print-then-reparse identity
on the rational model. -/
def serialize_number (q : ℚ) : List Nat :=
  if q = 0 then [48]
  else
    let d := q.den
    let k := max (pFactor 2 d) (pFactor 5 d)
    let sign : List Nat := if q.num < 0 then [45] else []
    if 10 ^ k % d = 0 then sign ++ digitsWithPoint (q.num.natAbs * (10 ^ k / d)) k
    else sign ++ digitsWithPoint ((|q| * 10 ^ 30).floor.natAbs) 30

/-! ## strtod model

parson delegates numeric conversion to the C library `strtod`
(parson.c line 1145) and re-validates the consumed substring with
`is_decimal`.  The model below follows C99 7.20.1.3: optional leading
whitespace and sign; a decimal literal with optional fraction and exponent
(the exponent is consumed only if at least one digit follows it); a hex
literal `0x…` with optional `p`-exponent (falling back to consuming just the
`0` when no hex digit follows `0x`); and `inf`/`infinity`/`nan`, whose values
are not finite doubles and are reported as `none` (json_value_init_number
then rejects them via IS_NUMBER_INVALID).  Rounding to double and
`errno`/`ERANGE` are abstracted away: values are exact rationals. -/

def is_hex_digit_byte (b : Nat) : Bool :=
  (48 ≤ b && b ≤ 57) || (97 ≤ b && b ≤ 102) || (65 ≤ b && b ≤ 70)

/-- Value of a run of hex digit bytes (most significant first). -/
def natOfHexDigits (ds : List Nat) : Nat :=
  ds.foldl (fun acc d => acc * 16 + (hex_char_to_int d).toNat) 0

/-- Case-insensitive byte comparison against a lowercase letter byte. -/
def byteIsLetter (b lower : Nat) : Bool := b = lower || b + 32 = lower

/-- Consumes `[eE][+-]?digits` (resp. `p` for hex); returns `(consumed, value, rest)`,
consuming nothing when no digit follows the exponent letter (C99 semantics). -/
def strtodExponent (letter : Nat) (s : List Nat) : List Nat × Int × List Nat :=
  match s with
  | e :: rest =>
    if byteIsLetter e letter then
      let (sgnBytes, sgn, rest2) : List Nat × Int × List Nat :=
        match rest with
        | 43 :: r => ([43], 1, r)
        | 45 :: r => ([45], -1, r)
        | _ => ([], 1, rest)
      let ds := rest2.takeWhile is_digit_byte
      if ds = [] then ([], 0, s)
      else (e :: sgnBytes ++ ds, sgn * natOfDigits ds, rest2.dropWhile is_digit_byte)
    else ([], 0, s)
  | [] => ([], 0, s)

/-- Scales an exact rational by `10^e` (resp. `2^e` for hex) without `zpow`,
so that the kernel evaluates it. -/
def scalePow (base : Nat) (q : ℚ) (e : Int) : ℚ :=
  if 0 ≤ e then q * (base : ℚ) ^ e.toNat else q / (base : ℚ) ^ (-e).toNat

/-- The sign-stripped tail of a decimal subject sequence:
`digits [. digits] [exponent]`.  Returns `(consumed, value)`, or `none` when
there is no digit at all (no conversion). -/
def strtodDecimalTail (s : List Nat) : Option (List Nat × ℚ) :=
  let intDs := s.takeWhile is_digit_byte
  let s1 := s.dropWhile is_digit_byte
  let (fracBytes, fracDs, s2) : List Nat × List Nat × List Nat :=
    match s1 with
    | 46 :: r => (46 :: r.takeWhile is_digit_byte, r.takeWhile is_digit_byte,
                  r.dropWhile is_digit_byte)
    | _ => ([], [], s1)
  if intDs = [] ∧ fracDs = [] then none
  else
    let (expBytes, expVal, _) := strtodExponent 101 s2
    let mant : ℚ := (natOfDigits (intDs ++ fracDs) : ℚ) / (10 : ℚ) ^ fracDs.length
    some (intDs ++ fracBytes ++ expBytes, scalePow 10 mant expVal)

/-- The sign-stripped tail of a hex subject sequence after `0x`:
`hexdigits [. hexdigits] [p-exponent]`; `none` when no hex digit at all. -/
def strtodHexTail (s : List Nat) : Option (List Nat × ℚ) :=
  let intDs := s.takeWhile is_hex_digit_byte
  let s1 := s.dropWhile is_hex_digit_byte
  let (fracBytes, fracDs, s2) : List Nat × List Nat × List Nat :=
    match s1 with
    | 46 :: r => (46 :: r.takeWhile is_hex_digit_byte, r.takeWhile is_hex_digit_byte,
                  r.dropWhile is_hex_digit_byte)
    | _ => ([], [], s1)
  if intDs = [] ∧ fracDs = [] then none
  else
    let (expBytes, expVal, _) := strtodExponent 112 s2
    let mant : ℚ := (natOfHexDigits (intDs ++ fracDs) : ℚ) / (16 : ℚ) ^ fracDs.length
    some (intDs ++ fracBytes ++ expBytes, scalePow 2 mant expVal)

/-- The `inf` / `infinity` literal (case-insensitive); returns the consumed bytes. -/
def matchInf : List Nat → Option (List Nat)
  | i :: n :: f :: r =>
    if byteIsLetter i 105 && byteIsLetter n 110 && byteIsLetter f 102 then
      some (match r with
        | i2 :: n2 :: i3 :: t :: y :: _ =>
          if byteIsLetter i2 105 && byteIsLetter n2 110 && byteIsLetter i3 105 &&
              byteIsLetter t 116 && byteIsLetter y 121 then
            [i, n, f, i2, n2, i3, t, y]
          else [i, n, f]
        | _ => [i, n, f])
    else none
  | _ => none

/-- The `nan` literal (case-insensitive); returns the consumed bytes. -/
def matchNan : List Nat → Option (List Nat)
  | n :: a :: n2 :: _ =>
    if byteIsLetter n 110 && byteIsLetter a 97 && byteIsLetter n2 110 then
      some [n, a, n2]
    else none
  | _ => none

/-- The sign-stripped subject sequence: hex literal, `inf`/`nan`, or decimal
literal.  Returns `(consumed, value?)`; an empty `consumed` means no
conversion; `none` as value means a non-finite result. -/
def strtodBody (s2 : List Nat) : List Nat × Option ℚ :=
  if s2.take 2 = [48, 120] ∨ s2.take 2 = [48, 88] then
    match strtodHexTail (s2.drop 2) with
    | some (consumed, v) => (s2.take 2 ++ consumed, some v)
    | none => ([48], some 0)  -- "0x" with no hex digit: the subject is just "0"
  else
    match matchInf s2 with
    | some consumed => (consumed, none)
    | none =>
      match matchNan s2 with
      | some consumed => (consumed, none)
      | none =>
        match strtodDecimalTail s2 with
        | some (consumed, v) => (consumed, some v)
        | none => ([], some 0)

/-- The optional sign of the subject sequence: `(consumed, negative, rest)`. -/
def strtodSign : List Nat → List Nat × Bool × List Nat
  | 45 :: r => ([45], true, r)
  | 43 :: r => ([43], false, r)
  | s1 => ([], false, s1)

/-- Model of C `strtod`: returns `(consumed, value?)` where `consumed` is the
byte span between the original pointer and the returned end pointer (leading
whitespace included when a conversion occurs), and `value?` is `none` exactly
for non-finite results (`inf`/`nan` literals).  When no conversion is
possible the consumed span is empty and the value is 0 (the end pointer is
reset to the original pointer, C99 7.20.1.3p7). -/
def strtod (s : List Nat) : List Nat × Option ℚ :=
  let ws := s.takeWhile is_space_byte
  let s1 := s.dropWhile is_space_byte
  let (signBytes, neg, s2) : List Nat × Bool × List Nat := strtodSign s1
  let (c, v) := strtodBody s2
  if c = [] then ([], some 0)
  else (ws ++ signBytes ++ c, if neg then v.map Neg.neg else v)

/-! ## String unescaping (parse side) -/

/-- UTF-8 encoding of a codepoint below 0xD800 (the 1-3 byte forms written by
parse_utf16, parson.c lines 798-808). -/
def utf8Bytes3 (cp : Nat) : List Nat :=
  if cp < 0x80 then [cp]
  else if cp < 0x800 then [(cp >>> 6) &&& 0x1F ||| 0xC0, cp &&& 0x3F ||| 0x80]
  else [(cp >>> 12) &&& 0x0F ||| 0xE0, (cp >>> 6) &&& 0x3F ||| 0x80, cp &&& 0x3F ||| 0x80]

/-- The 4-byte UTF-8 form of the supplementary codepoint combined from a
surrogate pair (parson.c lines 819-824). -/
def utf8Bytes4 (lead trail : Nat) : List Nat :=
  let cp := (((lead - 0xD800) &&& 0x3FF) <<< 10 ||| ((trail - 0xDC00) &&& 0x3FF)) + 0x10000
  [(cp >>> 18) &&& 0x07 ||| 0xF0, (cp >>> 12) &&& 0x3F ||| 0x80,
   (cp >>> 6) &&& 0x3F ||| 0x80, cp &&& 0x3F ||| 0x80]

/-- The escape-processing loop of process_string (parson.c lines 846-898)
producing the raw written bytes.  The `\u` branch inlines parse_utf16
(lines 788-832): read a hex quad; 1-3 byte codepoints are written directly; a
lead surrogate (0xD800-0xDBFF) requires an immediately following `\uXXXX`
trail surrogate (0xDC00-0xDFFF); a trail surrogate first is an error, as is a
short or non-hex quad (parse_utf16_hex's NUL/hex checks are the pattern
guards here).  Unescaped bytes below 0x20 are rejected; everything else is
copied through. -/
def process_string_raw : List Nat → Option (List Nat)
  | [] => some []
  | 92 :: 117 :: a :: b :: c :: d :: rest =>
    (match parse_utf16_hex a b c d with
     | none => none
     | some cp =>
       if cp < 0xD800 ∨ cp > 0xDFFF then
         (utf8Bytes3 cp ++ ·) <$> process_string_raw rest
       else if cp ≤ 0xDBFF then
         match rest with
         | 92 :: 117 :: e :: f :: g :: h :: rest2 =>
           (match parse_utf16_hex e f g h with
            | none => none
            | some trail =>
              if 0xDC00 ≤ trail ∧ trail ≤ 0xDFFF then
                (utf8Bytes4 cp trail ++ ·) <$> process_string_raw rest2
              else none)
         | _ => none
       else none)  -- trail surrogate before lead surrogate
  | 92 :: e :: rest =>
    (match e with
     | 34 => (34 :: ·) <$> process_string_raw rest
     | 92 => (92 :: ·) <$> process_string_raw rest
     | 47 => (47 :: ·) <$> process_string_raw rest
     | 98 => (8 :: ·) <$> process_string_raw rest
     | 102 => (12 :: ·) <$> process_string_raw rest
     | 110 => (10 :: ·) <$> process_string_raw rest
     | 114 => (13 :: ·) <$> process_string_raw rest
     | 116 => (9 :: ·) <$> process_string_raw rest
     | 117 => none  -- \u with fewer than four following bytes (parse_utf16_hex fails)
     | _ => none)
  | c :: rest =>
    if c < 32 then none  -- unescaped control byte, invalid per RFC
    else if c = 92 then none  -- trailing backslash (covered above when a byte follows)
    else (c :: ·) <$> process_string_raw rest

/-- process_string: the processed buffer, observed as a C string (the output
buffer may contain a NUL written by `\u0000`, and every later use of the
string goes through strlen/strcmp, so the model truncates there). -/
def process_string (s : List Nat) : Option (List Nat) :=
  (process_string_raw s).map cstr

/-- The scan of skip_quotes (parson.c lines 759-777) after the opening quote:
collects the raw bytes up to the matching unescaped closing quote (a
backslash skips the byte after it), returning `(interior, rest)`. -/
def skip_quotes_scan : List Nat → Option (List Nat × List Nat)
  | [] => none  -- NUL before the closing quote
  | 34 :: rest => some ([], rest)
  | 92 :: [] => none  -- NUL right after a backslash
  | 92 :: c :: rest => (fun p => (92 :: c :: p.1, p.2)) <$> skip_quotes_scan rest
  | c :: rest => (fun p => (c :: p.1, p.2)) <$> skip_quotes_scan rest

/-- get_quoted_string (parson.c lines 913-922): skip_quotes to find the
matching quote, then process_string on the interior. -/
def get_quoted_string (s : List Nat) : Option (List Nat × List Nat) :=
  match s with
  | 34 :: rest =>
    match skip_quotes_scan rest with
    | none => none
    | some (interior, rest2) =>
      match process_string interior with
      | none => none
      | some out => some (out, rest2)
  | _ => none  -- skip_quotes fails unless the first byte is a quote

/-! ## The leaf parsers -/

/-- parse_string_value (parson.c lines 1096-1108). -/
def parse_string_value (s : List Nat) : Option (JValue × List Nat) :=
  (get_quoted_string s).map fun p => (.string p.1, p.2)

/-- parse_boolean_value (parson.c lines 1119-1130): strncmp prefix match
against `true` / `false`. -/
def parse_boolean_value (s : List Nat) : Option (JValue × List Nat) :=
  if s.take 4 = strBytes ("true") then some (.boolean true, s.drop 4)
  else if s.take 5 = strBytes ("false") then some (.boolean false, s.drop 5)
  else none

/-- parse_null_value (parson.c lines 1162-1169): strncmp prefix match. -/
def parse_null_value (s : List Nat) : Option (JValue × List Nat) :=
  if s.take 4 = strBytes ("null") then some (.null, s.drop 4)
  else none

/-- parse_number_value (parson.c lines 1141-1151): strtod, then the
is_decimal re-validation of the consumed span; json_value_init_number
(lines 2150-2163) rejects non-finite values.  `errno` is abstracted (see the
strtod model note). -/
def parse_number_value (s : List Nat) : Option (JValue × List Nat) :=
  let (consumed, v) := strtod s
  if ¬ is_decimal consumed then none
  else
    match v with
    | none => none  -- IS_NUMBER_INVALID in json_value_init_number
    | some q => some (.number q, s.drop consumed.length)

/-! ## The recursive-descent core

parse_value / parse_object_value / parse_array_value (parson.c lines
934-1085).  The two container parsers are inlined into the branches of
`parse_value` (their bodies follow the C line by line); their member/element
loops are the recursive helpers below.  `fuel` is the explicit termination
counter (see the header note); `nesting` is the C depth argument checked
against MAX_NESTING on entry to parse_value. -/

mutual

/-- parse_value (parson.c lines 934-957): depth check, skip whitespace,
dispatch on the first byte; `{`/`[` enter the container parsers with
`nesting + 1`; anything unrecognised is an error. -/
def parse_value : Nat → List Nat → Nat → Option (JValue × List Nat)
  | 0, _, _ => none
  | fuel + 1, s, nesting =>
    if nesting > MAX_NESTING then none
    else
      match skip_whitespaces s with
      | [] => none  -- dispatch on NUL: no case matches
      | c :: t =>
        if c = 123 then
          -- parse_object_value (lines 969-1029), inlined: skip `{`, skip
          -- whitespace, empty object on `}`, otherwise the member loop, then
          -- the closing `}` (the trim-resize always succeeds in the model).
          let t1 := skip_whitespaces t
          match t1 with
          | 125 :: r => some (.object [], r)
          | _ =>
            match parse_object_members fuel [] t1 (nesting + 1) with
            | none => none
            | some (pairs, r) =>
              match skip_whitespaces r with
              | 125 :: r2 => some (.object pairs, r2)
              | _ => none
        else if c = 91 then
          -- parse_array_value (lines 1041-1085), inlined the same way.
          let t1 := skip_whitespaces t
          match t1 with
          | 93 :: r => some (.array [], r)
          | _ =>
            match parse_array_items fuel [] t1 (nesting + 1) with
            | none => none
            | some (items, r) =>
              match skip_whitespaces r with
              | 93 :: r2 => some (.array items, r2)
              | _ => none
        else if c = 34 then parse_string_value (c :: t)
        else if c = 102 ∨ c = 116 then parse_boolean_value (c :: t)
        else if c = 45 ∨ (48 ≤ c ∧ c ≤ 57) then parse_number_value (c :: t)
        else if c = 110 then parse_null_value (c :: t)
        else none

/-- The member loop of parse_object_value (parson.c lines 988-1020): quoted
key, `:`, value, json_object_add (duplicate keys fail, lines 476-478), then
`,` continues the loop and anything else breaks out of it.  An exhausted
input exits the loop (the caller then fails on the missing `}`). -/
def parse_object_members :
    Nat → List (List Nat × JValue) → List Nat → Nat →
      Option (List (List Nat × JValue) × List Nat)
  | 0, _, _, _ => none
  | fuel + 1, acc, s, nesting =>
    match s with
    | [] => some (acc, [])  -- while-condition `**string != '\0'` fails
    | _ =>
      match get_quoted_string s with
      | none => none
      | some (key, s1) =>
        match skip_whitespaces s1 with
        | 58 :: s2 =>
          match parse_value fuel s2 nesting with
          | none => none
          | some (v, s3) =>
            -- json_object_add: fails when the key is already present
            if (acc.find? fun p => p.1 = key).isSome then none
            else
              let acc2 := acc ++ [(key, v)]
              match skip_whitespaces s3 with
              | 44 :: s4 => parse_object_members fuel acc2 (skip_whitespaces s4) nesting
              | r => some (acc2, r)
        | _ => none  -- missing `:`

/-- The element loop of parse_array_value (parson.c lines 1059-1076). -/
def parse_array_items :
    Nat → List JValue → List Nat → Nat → Option (List JValue × List Nat)
  | 0, _, _, _ => none
  | fuel + 1, acc, s, nesting =>
    match s with
    | [] => some (acc, [])
    | _ =>
      match parse_value fuel s nesting with
      | none => none
      | some (v, s1) =>
        let acc2 := acc ++ [v]
        match skip_whitespaces s1 with
        | 44 :: s2 => parse_array_items fuel acc2 (skip_whitespaces s2) nesting
        | r => some (acc2, r)

end

/-- Initial fuel for the public parse entry point.  The C recursion depth is
bounded by the input length (every parse_value entry and every loop
iteration consumes input), so this is ample; the claims' theorems prove the
needed success or failure facts directly. -/
def parse_fuel (s : List Nat) : Nat := 2 * s.length + 8

/-- json_parse_string (parson.c lines 1503-1511): skip a UTF-8 BOM if
present, then parse one value from the front of the input.  Note: no
end-of-input check follows the top-level parse_value — trailing bytes are
ignored. -/
def json_parse_string (s : List Nat) : Option JValue :=
  let s1 := if s.take 3 = [239, 187, 191] then s.drop 3 else s
  (parse_value (parse_fuel s1) s1 0).map Prod.fst

/-! ## Lookup in objects -/

/-- json_object_getn_value (parson.c lines 547-559): linear scan for the
first pair whose stored name has the same length and bytes.  Stored names and
lookup names are modelled as already-truncated C strings, so the
`strlen`+`strncmp` comparison is list equality. -/
def json_object_getn_value (pairs : List (List Nat × JValue)) (name : List Nat) :
    Option JValue :=
  (pairs.find? fun p => p.1 = name).map Prod.snd

/-! ## The two-pass serializer

json_serialize_to_buffer_r (parson.c lines 1196-1330) both counts (when
`buf == NULL`) and writes; the model's `useBuf` flag is `buf != NULL`, the
returned `Nat` is `written_total` and the returned list is the bytes put into
`buf` (empty in counting mode). -/

/-- The global parson_escape_slashes flag (parson.c line 68), at its default
value 1 (json_set_escape_slashes is not modelled — no claim toggles it). -/
def parson_escape_slashes : Bool := true

/-- append_string (parson.c lines 1439-1444): with a NULL buffer it returns
`strlen(string)`; with a buffer, `sprintf "%s"` writes the string up to its
NUL and returns the same count. -/
def append_string (useBuf : Bool) (frag : List Nat) : Nat × List Nat :=
  (cstrlen frag, if useBuf then cstr frag else [])

/-- append_indent (parson.c lines 1420-1427): `level` copies of four spaces. -/
def append_indent (useBuf : Bool) (level : Nat) : Nat × List Nat :=
  (4 * level, if useBuf then List.replicate (4 * level) 32 else [])

/-- Concatenation of two (written_total, bytes) accumulations. -/
def sAppend (a b : Nat × List Nat) : Nat × List Nat := (a.1 + b.1, a.2 ++ b.2)

/-- The bytes the switch of json_serialize_string (parson.c lines 1343-1408)
appends for one content byte: the two-byte escapes for quote, backslash and
the five short control escapes; `\u00XX` (lowercase hex) for the remaining
control bytes; `\/` for slash when the global flag is set; the byte itself
otherwise. -/
def serialize_string_char (esc : Bool) (c : Nat) : List Nat :=
  if c = 34 then [92, 34]
  else if c = 92 then [92, 92]
  else if c = 8 then [92, 98]
  else if c = 12 then [92, 102]
  else if c = 10 then [92, 110]
  else if c = 13 then [92, 114]
  else if c = 9 then [92, 116]
  else if c < 32 then
    [92, 117, 48, 48, 48 + c / 16, if c % 16 < 10 then 48 + c % 16 else 87 + c % 16]
  else if c = 47 then (if esc then [92, 47] else [47])
  else [c]

/-- The character loop of json_serialize_string: each escape case counts via
append_string on its literal, the default case writes the byte directly and
counts one (parson.c lines 1397-1403). -/
def serialize_string_go (useBuf esc : Bool) : List Nat → Nat × List Nat
  | [] => (0, [])
  | c :: rest =>
    let w := serialize_string_char esc c
    sAppend (w.length, if useBuf then w else []) (serialize_string_go useBuf esc rest)

/-- json_serialize_string (parson.c lines 1343-1408): quote, the escaped
content bytes (the loop runs over `strlen(string)` bytes, hence over the
truncated list), quote. -/
def json_serialize_string (useBuf : Bool) (s : List Nat) : Nat × List Nat :=
  sAppend (append_string useBuf [34])
    (sAppend (serialize_string_go useBuf parson_escape_slashes (cstr s))
      (append_string useBuf [34]))

mutual

/-- json_serialize_to_buffer_r (parson.c lines 1196-1330).  The C error
returns (-1) become `none`; the reachable ones are the object-lookup miss
(`key == NULL` / a NULL member value, both impossible for modelled trees) and
fuel exhaustion.  The number case mirrors lines 1308-1321: `sprintf`
produces the same count in both modes (the counting pass prints into
`num_buf`). -/
def json_serialize_to_buffer_r :
    Nat → Bool → Bool → Nat → JValue → Option (Nat × List Nat)
  | 0, _, _, _, _ => none
  | fuel + 1, useBuf, is_pretty, level, v =>
    match v with
    | .array items =>
      (match serialize_array_items fuel useBuf is_pretty level items with
       | none => none
       | some body =>
         let openB := append_string useBuf [91]
         let nl := if !items.isEmpty && is_pretty then append_string useBuf [10] else (0, [])
         let closeInd :=
           if !items.isEmpty && is_pretty then append_indent useBuf level else (0, [])
         some (sAppend openB (sAppend nl (sAppend body
           (sAppend closeInd (append_string useBuf [93]))))))
    | .object pairs =>
      (match serialize_object_members fuel useBuf is_pretty level pairs pairs with
       | none => none
       | some body =>
         let openB := append_string useBuf [123]
         let nl := if !pairs.isEmpty && is_pretty then append_string useBuf [10] else (0, [])
         let closeInd :=
           if !pairs.isEmpty && is_pretty then append_indent useBuf level else (0, [])
         some (sAppend openB (sAppend nl (sAppend body
           (sAppend closeInd (append_string useBuf [125]))))))
    | .string s => some (json_serialize_string useBuf s)
    | .boolean true => some (append_string useBuf (strBytes ("true")))
    | .boolean false => some (append_string useBuf (strBytes ("false")))
    | .number q =>
      let nb := serialize_number q
      some (nb.length, if useBuf then nb else [])
    | .null => some (append_string useBuf (strBytes ("null")))

/-- The element loop of the JSONArray case (parson.c lines 1214-1233):
optional indent, the element at `level + 1`, a comma unless last, an
optional newline. -/
def serialize_array_items :
    Nat → Bool → Bool → Nat → List JValue → Option (Nat × List Nat)
  | 0, _, _, _, _ => none
  | fuel + 1, useBuf, is_pretty, level, items =>
    match items with
    | [] => some (0, [])
    | v :: rest =>
      let ind := if is_pretty then append_indent useBuf (level + 1) else (0, [])
      match json_serialize_to_buffer_r fuel useBuf is_pretty (level + 1) v with
      | none => none
      | some sv =>
        let comma := if !rest.isEmpty then append_string useBuf [44] else (0, [])
        let nl := if is_pretty then append_string useBuf [10] else (0, [])
        match serialize_array_items fuel useBuf is_pretty level rest with
        | none => none
        | some srest => some (sAppend ind (sAppend sv (sAppend comma (sAppend nl srest))))

/-- The member loop of the JSONObject case (parson.c lines 1246-1281): the
i-th key is serialized, then the member value is fetched *by key*
(json_object_get_value, line 1266) and serialized at `level + 1`.  The full
pair list rides along for that lookup. -/
def serialize_object_members :
    Nat → Bool → Bool → Nat → List (List Nat × JValue) → List (List Nat × JValue) →
      Option (Nat × List Nat)
  | 0, _, _, _, _, _ => none
  | fuel + 1, useBuf, is_pretty, level, allPairs, remaining =>
    match remaining with
    | [] => some (0, [])
    | (key, _) :: rest =>
      match json_object_getn_value allPairs key with
      | none => none  -- json_value_get_type(NULL) = JSONError → -1 (unreachable)
      | some tv =>
        let ind := if is_pretty then append_indent useBuf (level + 1) else (0, [])
        let kstr := json_serialize_string useBuf key
        let colon := append_string useBuf [58]
        let sp := if is_pretty then append_string useBuf [32] else (0, [])
        match json_serialize_to_buffer_r fuel useBuf is_pretty (level + 1) tv with
        | none => none
        | some sv =>
          let comma := if !rest.isEmpty then append_string useBuf [44] else (0, [])
          let nl := if is_pretty then append_string useBuf [10] else (0, [])
          match serialize_object_members fuel useBuf is_pretty level allPairs rest with
          | none => none
          | some srest =>
            some (sAppend ind (sAppend kstr (sAppend colon (sAppend sp
              (sAppend sv (sAppend comma (sAppend nl srest)))))))

end

/-! ## Tree measures (fuel for the non-parser recursions) -/

mutual

/-- A size measure on trees: enough fuel for the serializer and for
json_value_equals (each counts one unit per node visit and per list step). -/
def jsz : JValue → Nat
  | .null => 1
  | .boolean _ => 1
  | .number _ => 1
  | .string _ => 1
  | .array items => 1 + jszArr items
  | .object pairs => 1 + jszObj pairs

def jszArr : List JValue → Nat
  | [] => 1
  | v :: rest => 1 + jsz v + jszArr rest

def jszObj : List (List Nat × JValue) → Nat
  | [] => 1
  | (_, v) :: rest => 1 + jsz v + jszObj rest

end

mutual

/-- One more than the number of containers enclosing the deepest value of the
tree: `parse_value` at depth argument `n` succeeds on the serialized tree iff
`n + nestNeed v ≤ MAX_NESTING + 1` (the C counter passed to parse_value for a
value under `e` containers is `e`, checked `> MAX_NESTING` on entry). -/
def nestNeed : JValue → Nat
  | .null => 1
  | .boolean _ => 1
  | .number _ => 1
  | .string _ => 1
  | .array items => 1 + nestNeedArr items
  | .object pairs => 1 + nestNeedObj pairs

def nestNeedArr : List JValue → Nat
  | [] => 0
  | v :: rest => max (nestNeed v) (nestNeedArr rest)

def nestNeedObj : List (List Nat × JValue) → Nat
  | [] => 0
  | (_, v) :: rest => max (nestNeed v) (nestNeedObj rest)

end

/-! ## Structural equality -/

mutual

/-- json_value_equals (parson.c lines 3131-3193), fueled.  Types must match;
arrays compare counts then elements pairwise by index; objects compare
counts, then for each key of `a` look the value up *by key in both objects*
(lines 3167-3173) — a NULL lookup result behaves as JSONError (type mismatch
against any real value, equal to another NULL); strings via `strcmp`;
booleans via `==`; numbers via `fabs(a-b) < 0.000001`. -/
def json_value_equals_fuel : Nat → JValue → JValue → Bool
  | 0, _, _ => false
  | fuel + 1, a, b =>
    match a, b with
    | .array as, .array bs => as.length = bs.length && equals_items fuel as bs
    | .object ap, .object bp => ap.length = bp.length && equals_members fuel ap bp ap
    | .string x, .string y => cstr x = cstr y
    | .boolean x, .boolean y => x = y
    | .number x, .number y => decide (|x - y| < 1 / 1000000)
    | .null, .null => true
    | _, _ => false

/-- The array loop of json_value_equals (index-parallel). -/
def equals_items : Nat → List JValue → List JValue → Bool
  | 0, _, _ => false
  | _ + 1, [], _ => true
  | _ + 1, _ :: _, [] => false
  | fuel + 1, x :: xs, y :: ys =>
    json_value_equals_fuel fuel x y && equals_items fuel xs ys

/-- The object loop of json_value_equals: walk `a`'s keys, comparing the
by-key lookups in `a` and `b`. -/
def equals_members :
    Nat → List (List Nat × JValue) → List (List Nat × JValue) →
      List (List Nat × JValue) → Bool
  | 0, _, _, _ => false
  | _ + 1, _, _, [] => true
  | fuel + 1, aAll, bAll, (k, _) :: rest =>
    (match json_object_getn_value aAll k, json_object_getn_value bAll k with
     | some x, some y => json_value_equals_fuel fuel x y
     | none, none => true
     | _, _ => false) && equals_members fuel aAll bAll rest

end

/-- json_value_equals with its ample fuel (the recursion of the C function
descends only through values of `a`). -/
def json_value_equals (a b : JValue) : Bool := json_value_equals_fuel (jsz a) a b

/-! ## Serializer entry points -/

/-- json_serialization_size (parson.c lines 2307-2311): the counting pass
plus one terminator byte; 0 on failure. -/
def json_serialization_size (v : JValue) : Nat :=
  match json_serialize_to_buffer_r (jsz v) false false 0 v with
  | some (t, _) => t + 1
  | none => 0

/-- json_serialization_size_pretty (parson.c lines 2408-2412). -/
def json_serialization_size_pretty (v : JValue) : Nat :=
  match json_serialize_to_buffer_r (jsz v) false true 0 v with
  | some (t, _) => t + 1
  | none => 0

/-- json_serialize_to_string (parson.c lines 2380-2397): the writing pass's
buffer contents (NULL on failure). -/
def json_serialize_to_string (v : JValue) : Option (List Nat) :=
  match json_serialize_to_buffer_r (jsz v) true false 0 v with
  | some (_, b) => some b
  | none => none

/-- json_serialize_to_string_pretty (parson.c lines 2480-2497). -/
def json_serialize_to_string_pretty (v : JValue) : Option (List Nat) :=
  match json_serialize_to_buffer_r (jsz v) true true 0 v with
  | some (_, b) => some b
  | none => none

/-! ## The mutation API (parent guards, insertion, removal)

These model the public container operations.  `AttValue` carries the
`parent` back-pointer of struct json_value_t as a flag (`true` iff
`value->parent != NULL`); pointer arguments that the C checks against NULL
are `Option`s. -/

/-- JSON_Status. -/
inductive JStatus : Type where
  | success : JStatus
  | failure : JStatus
deriving DecidableEq

/-- A JSON_Value together with its parent back-pointer (observed only as
null / non-null, which is all the C code ever checks it for). -/
structure AttValue : Type where
  parent : Bool
  val : JValue

/-- Lookup in the mutation-API object representation (same scan as
json_object_getn_value). -/
def att_object_getn (pairs : List (List Nat × AttValue)) (name : List Nat) :
    Option AttValue :=
  (pairs.find? fun p => p.1 = name).map Prod.snd

/-- json_object_addn (parson.c lines 471-494): fails when the key is already
present (before any mutation), otherwise stores a strndup of the key and the
value with its parent set.  NULL-argument guards and capacity growth are
outside the model (see header). -/
def json_object_addn (pairs : List (List Nat × AttValue)) (name : List Nat)
    (v : AttValue) : JStatus × List (List Nat × AttValue) :=
  if (att_object_getn pairs (cstr name)).isSome then (.failure, pairs)
  else (.success, pairs ++ [(cstr name, { v with parent := true })])

/-- json_array_add (parson.c lines 668-679): grow (always succeeds in the
model), set the parent, append. -/
def json_array_add (arr : List AttValue) (v : AttValue) : JStatus × List AttValue :=
  (.success, arr ++ [{ v with parent := true }])

/-- json_array_append_value (parson.c lines 2667-2672): NULL array, NULL
value or an already-parented value fail before any mutation. -/
def json_array_append_value (arr : Option (List AttValue)) (v : Option AttValue) :
    JStatus × Option (List AttValue) :=
  match arr, v with
  | some a, some w =>
    if w.parent then (.failure, some a)
    else
      let r := json_array_add a w
      (r.1, some r.2)
  | _, _ => (.failure, arr)

/-- json_array_replace_value (parson.c lines 2542-2550): NULL array, NULL
value, already-parented value or out-of-range index fail; otherwise the old
element is freed and the slot overwritten. -/
def json_array_replace_value (arr : Option (List AttValue)) (ix : Nat)
    (v : Option AttValue) : JStatus × Option (List AttValue) :=
  match arr, v with
  | some a, some w =>
    if w.parent ∨ ix ≥ a.length then (.failure, some a)
    else (.success, some (a.set ix { w with parent := true }))
  | _, _ => (.failure, arr)

/-- The overwrite loop of json_object_set_value (parson.c lines 2775-2781):
replace the value of the first pair with a matching key, keeping the stored
key string. -/
def object_set_first (name : List Nat) (w : AttValue) :
    List (List Nat × AttValue) → List (List Nat × AttValue)
  | [] => []
  | p :: rest =>
    if p.1 = name then (p.1, w) :: rest else p :: object_set_first name w rest

/-- json_object_set_value (parson.c lines 2766-2785): NULL guards and the
parent guard fail first; an existing key has its value freed and overwritten
in place; a fresh key is appended via json_object_add/addn. -/
def json_object_set_value (obj : Option (List (List Nat × AttValue)))
    (name : Option (List Nat)) (v : Option AttValue) :
    JStatus × Option (List (List Nat × AttValue)) :=
  match obj, name, v with
  | some o, some nm, some w =>
    if w.parent then (.failure, some o)
    else if (att_object_getn o (cstr nm)).isSome then
      (.success, some (object_set_first (cstr nm) { w with parent := true } o))
    else
      let r := json_object_addn o nm w
      (r.1, some r.2)
  | _, _, _ => (.failure, obj)

/-- json_array_remove (parson.c lines 2520-2530): NULL array or out-of-range
index fail; otherwise the element is freed and the tail is shifted down one
slot by memmove — order-preserving removal. -/
def json_array_remove (arr : Option (List AttValue)) (ix : Nat) :
    JStatus × Option (List AttValue) :=
  match arr with
  | some a =>
    if ix ≥ a.length then (.failure, some a)
    else (.success, some (a.take ix ++ a.drop (ix + 1)))
  | none => (.failure, none)

/-- json_object_remove_internal (parson.c lines 571-592): fail when the key
is absent; otherwise free the first matching slot and move the *last* pair
into it (no shift — order is not preserved), decrementing the count. -/
def json_object_remove_internal (obj : Option (List (List Nat × AttValue)))
    (name : List Nat) : JStatus × Option (List (List Nat × AttValue)) :=
  match obj with
  | some o =>
    match o.findIdx? (fun p => p.1 = cstr name) with
    | none => (.failure, some o)
    | some i =>
      if i ≠ o.length - 1 then
        (.success, some ((o.set i (o.getLastD ([], ⟨false, .null⟩))).dropLast))
      else (.success, some o.dropLast)
  | none => (.failure, none)

/-! ## Concrete inputs used by the claims -/

/-- `{"a":1,"a":2}` — an object literal with a duplicated key. -/
def dupKeyInput : List Nat := [123, 34, 97, 34, 58, 49, 44, 34, 97, 34, 58, 50, 125]

/-- `"😀"` — a string literal holding one surrogate pair. -/
def emojiInput : List Nat := [34, 92, 117, 68, 56, 51, 68, 92, 117, 68, 69, 48, 48, 34]

/-- `"\uD800"` — a lone lead surrogate escape. -/
def loneLeadInput : List Nat := [34, 92, 117, 68, 56, 48, 48, 34]

/-- `"\uDC00"` — a trail surrogate escape with no preceding lead. -/
def loneTrailInput : List Nat := [34, 92, 117, 68, 67, 48, 48, 34]

/-- Largest tree size among an object's member values. -/
def jszMaxObj : List (List Nat × JValue) → Nat
  | [] => 0
  | (_, v) :: rest => max (jsz v) (jszMaxObj rest)

/-- `k` opening brackets followed by `k` closing brackets. -/
def listNest (k : Nat) : List Nat := List.replicate k 91 ++ List.replicate k 93

/-- The array nested `k + 1` containers deep: `deepArr 0` is `[]`. -/
def deepArr : Nat → JValue
  | 0 => .array []
  | k + 1 => .array [deepArr k]

/-! ## C1: round trip

The proof goes through a closed-form description `render` of the compact
writing pass (proved equal to json_serialize_to_buffer_r on wellformed
trees), and inverse lemmas showing parse_value recovers the tree from
`render` output. -/

mutual

/-- The compact bytes json_serialize_to_buffer_r emits (writing mode): the
object member values are written positionally here, which coincides with the
C's by-key lookup on duplicate-free keys. -/
def render : JValue → List Nat
  | .null => strBytes ("null")
  | .boolean true => strBytes ("true")
  | .boolean false => strBytes ("false")
  | .number q => serialize_number q
  | .string s =>
    [34] ++ (cstr s).flatMap (serialize_string_char parson_escape_slashes) ++ [34]
  | .array items => [91] ++ renderItems items ++ [93]
  | .object pairs => [123] ++ renderMembers pairs ++ [125]

def renderItems : List JValue → List Nat
  | [] => []
  | v :: rest => render v ++ (if rest.isEmpty then [] else [44]) ++ renderItems rest

def renderMembers : List (List Nat × JValue) → List Nat
  | [] => []
  | (k, v) :: rest =>
    [34] ++ (cstr k).flatMap (serialize_string_char parson_escape_slashes) ++ [34]
      ++ [58] ++ render v ++ (if rest.isEmpty then [] else [44]) ++ renderMembers rest

end

mutual

/-- The trees reachable through the parson API: object keys are unique and
NUL-free, string payloads are NUL-free (the parser and json_value_init_string
both store NUL-truncated copies), and number payloads are the image of a C
double (finite decimal expansion). -/
def json_wf : JValue → Bool
  | .null => true
  | .boolean _ => true
  | .number q => number_printable q
  | .string s => s.all (fun b => b ≠ 0)
  | .array items => json_wf_arr items
  | .object pairs => decide ((pairs.map Prod.fst).Nodup) && json_wf_obj pairs

def json_wf_arr : List JValue → Bool
  | [] => true
  | v :: rest => json_wf v && json_wf_arr rest

def json_wf_obj : List (List Nat × JValue) → Bool
  | [] => true
  | (k, v) :: rest => k.all (fun b => b ≠ 0) && json_wf v && json_wf_obj rest

end

/-- A byte that cannot extend a serialized value: end of input or one of the
delimiters `,` `]` `}` that the serializer places after a nested value. -/
def numBoundary : List Nat → Prop
  | [] => True
  | c :: _ => c = 44 ∨ c = 93 ∨ c = 125

/-- A concrete well-formed tree exercising every constructor for the C1 witness. -/
def c1Value : JValue :=
  .object [(strBytes ("k"), .array [.number 5, .string (strBytes ("hi"))]),
           (strBytes ("b"), .boolean true)]

/-! ## C10: trailing input after the top-level value is ignored -/

/-- C10: json_parse_string performs no end-of-input check: whatever
parse_value leaves unconsumed is ignored, so a complete leading value
followed by arbitrary garbage parses to that value ("truex" and
"null garbage" being the concrete cases, matched by prefix comparison). -/
theorem claim_C10_trailing :
    (∀ s v rest, s.take 3 ≠ [239, 187, 191] →
        parse_value (parse_fuel s) s 0 = some (v, rest) →
        json_parse_string s = some v)
    ∧ json_parse_string (strBytes ("truex")) = some (.boolean true)
    ∧ json_parse_string (strBytes ("null garbage")) = some .null := by
  refine ⟨fun s v rest hbom hp => ?_, rfl, rfl⟩
  simp only [json_parse_string, if_neg hbom, hp, Option.map_some']

/-- Witness: the general part of C10 applied to the concrete input "truex". -/
theorem claim_C10_witness :
    json_parse_string (strBytes ("truex")) = some (.boolean true) :=
  claim_C10_trailing.1 (strBytes ("truex")) (.boolean true)
    (strBytes ("x")) (by decide) rfl

/-! ## C8: UTF-16 escape decoding -/

/-- C8: `"😀"` parses to the single 4-byte UTF-8 sequence of
U+1F600 (F0 9F 98 80); a lone lead surrogate escape fails, as does a trail
surrogate escape with no preceding lead. -/
theorem claim_C8_utf16 :
    json_parse_string emojiInput = some (.string [0xF0, 0x9F, 0x98, 0x80])
    ∧ json_parse_string loneLeadInput = none
    ∧ json_parse_string loneTrailInput = none :=
  ⟨rfl, rfl, rfl⟩

/-! ## C5: attach operations reject already-parented values -/

/-- C5: each public attach operation fails, leaving its container untouched,
when the supplied value already has a non-null parent. -/
theorem claim_C5_attach_guard :
    (∀ (a : List AttValue) (w : AttValue), w.parent = true →
        json_array_append_value (some a) (some w) = (.failure, some a))
    ∧ (∀ (a : List AttValue) (ix : Nat) (w : AttValue), w.parent = true →
        json_array_replace_value (some a) ix (some w) = (.failure, some a))
    ∧ (∀ (o : List (List Nat × AttValue)) (nm : List Nat) (w : AttValue),
        w.parent = true →
        json_object_set_value (some o) (some nm) (some w) = (.failure, some o)) := by
  refine ⟨fun a w h => ?_, fun a ix w h => ?_, fun o nm w h => ?_⟩
  · simp [json_array_append_value, h]
  · simp [json_array_replace_value, h]
  · simp [json_object_set_value, h]

/-- Witness: the three guards of C5 at concrete inputs. -/
theorem claim_C5_witness :
    json_array_append_value (some []) (some ⟨true, .null⟩) = (.failure, some [])
    ∧ json_array_replace_value (some [⟨true, .null⟩]) 0 (some ⟨true, .boolean true⟩)
        = (.failure, some [⟨true, .null⟩])
    ∧ json_object_set_value (some []) (some [97]) (some ⟨true, .null⟩)
        = (.failure, some []) :=
  ⟨claim_C5_attach_guard.1 [] ⟨true, .null⟩ rfl,
   claim_C5_attach_guard.2.1 [⟨true, .null⟩] 0 ⟨true, .boolean true⟩ rfl,
   claim_C5_attach_guard.2.2 [] [97] ⟨true, .null⟩ rfl⟩

/-! ## C4: duplicate keys -/

/-- C4: inserting a pair under a key that is already present fails and
leaves the object exactly as it was, and during parsing the duplicate-key
insertion failure aborts the whole parse (`{"a":1,"a":2}` parses to Error). -/
theorem claim_C4_duplicate_key :
    (∀ (pairs : List (List Nat × AttValue)) (name : List Nat) (w : AttValue),
        (att_object_getn pairs (cstr name)).isSome →
        json_object_addn pairs name w = (.failure, pairs))
    ∧ json_parse_string dupKeyInput = none := by
  refine ⟨fun pairs name w h => ?_, rfl⟩
  simp [json_object_addn, h]

/-- Witness: C4 at an object that already maps "a" (byte 97). -/
theorem claim_C4_witness :
    json_object_addn [([97], ⟨true, .number 1⟩)] [97] ⟨false, .number 2⟩
      = (.failure, [([97], ⟨true, .number 1⟩)]) :=
  claim_C4_duplicate_key.1 [([97], ⟨true, .number 1⟩)] [97] ⟨false, .number 2⟩
    (by decide)

/-! ## C6: removal semantics -/

/-- Swap-with-last removal produces a permutation of plain index removal. -/
theorem set_last_dropLast_perm {α : Type} (d : α) (o : List α) (i : Nat)
    (hi : i < o.length) (hne : i ≠ o.length - 1) :
    ((o.set i (o.getLastD d)).dropLast).Perm (o.eraseIdx i) := by
  have hnil : o ≠ [] := by
    intro h; subst h; simp at hi
  have hlast : o.getLastD d = o.getLast hnil := by
    rw [List.getLastD_eq_getLast?, List.getLast?_eq_getLast o hnil]; rfl
  have hset := List.set_eq_take_cons_drop (o.getLastD d) hi
  have hdropne : o.drop (i + 1) ≠ [] := by
    intro h
    have := List.drop_eq_nil_iff.mp h
    omega
  have hgl : (o.drop (i + 1)).getLast hdropne = o.getLast hnil := List.getLast_drop _
  have hsplit : o.drop (i + 1) = (o.drop (i + 1)).dropLast ++ [o.getLast hnil] := by
    conv_lhs => rw [← List.dropLast_append_getLast hdropne]
    rw [hgl]
  rw [hset, List.eraseIdx_eq_take_drop_succ]
  rw [show List.take i o ++ o.getLastD d :: List.drop (i + 1) o
        = List.take i o ++ ([o.getLastD d] ++ List.drop (i + 1) o) from by simp]
  rw [List.dropLast_append_of_ne_nil _ (by simp : [o.getLastD d] ++ List.drop (i + 1) o ≠ []),
    List.dropLast_append_of_ne_nil _ hdropne]
  refine List.Perm.append_left _ ?_
  conv_rhs => rw [hsplit]
  rw [hlast]
  simp only [List.singleton_append]
  exact (List.perm_append_singleton _ _).symm

/-- C6: json_array_remove shifts the elements after the removed index down
one slot (order-preserving: the result is exactly `eraseIdx`, and
`[10,20,30]` minus index 1 is `[10,30]`), while json_object_remove_internal
moves the last pair into the removed slot — the result is a permutation of
`eraseIdx`, and on a four-key object removing "b" visibly reorders the
remaining pairs to a, d, c. -/
theorem claim_C6_removal :
    (∀ (a : List AttValue) (ix : Nat), ix < a.length →
        json_array_remove (some a) ix = (.success, some (a.eraseIdx ix)))
    ∧ json_array_remove
        (some [⟨true, .number 10⟩, ⟨true, .number 20⟩, ⟨true, .number 30⟩]) 1
        = (.success, some [⟨true, .number 10⟩, ⟨true, .number 30⟩])
    ∧ (∀ (o : List (List Nat × AttValue)) (name : List Nat) (i : Nat),
        o.findIdx? (fun p => p.1 = cstr name) = some i →
        ∃ o2, json_object_remove_internal (some o) name = (.success, some o2)
          ∧ o2.Perm (o.eraseIdx i))
    ∧ json_object_remove_internal
        (some [([97], ⟨true, .number 1⟩), ([98], ⟨true, .number 2⟩),
               ([99], ⟨true, .number 3⟩), ([100], ⟨true, .number 4⟩)]) [98]
        = (.success, some [([97], ⟨true, .number 1⟩), ([100], ⟨true, .number 4⟩),
               ([99], ⟨true, .number 3⟩)]) := by
  refine ⟨fun a ix h => ?_, rfl, fun o name i hfind => ?_, rfl⟩
  · simp only [json_array_remove, if_neg (by omega : ¬ ix ≥ a.length)]
    rw [← List.eraseIdx_eq_take_drop_succ]
  · have hi : i < o.length := (List.findIdx?_eq_some_iff_getElem.mp hfind).fst
    simp only [json_object_remove_internal, hfind]
    by_cases hne : i ≠ o.length - 1
    · simp only [if_pos hne]
      exact ⟨_, rfl, set_last_dropLast_perm _ o i hi hne⟩
    · simp only [if_neg hne]
      push_neg at hne
      refine ⟨_, rfl, ?_⟩
      rw [@List.dropLast_eq_eraseIdx _ _ i (by omega)]

/-- Witness: C6 at concrete containers. -/
theorem claim_C6_witness :
    json_array_remove (some [⟨true, .null⟩, ⟨true, .boolean true⟩]) 0
      = (.success, some ([⟨true, .null⟩, ⟨true, .boolean true⟩].eraseIdx 0))
    ∧ ∃ o2, json_object_remove_internal (some [([97], ⟨true, .null⟩)]) [97]
        = (.success, some o2)
        ∧ o2.Perm (([([97], (⟨true, .null⟩ : AttValue))]).eraseIdx 0) :=
  ⟨claim_C6_removal.1 [⟨true, .null⟩, ⟨true, .boolean true⟩] 0 (by decide),
   claim_C6_removal.2.2.1 [([97], ⟨true, .null⟩)] [97] 0 (by decide)⟩

/-! ## C7: JSON numeric-literal validation after strtod -/

/-- Any consumed span meeting one of the three rejection conditions of C7
fails is_decimal. -/
theorem is_decimal_false_of (c : List Nat)
    (h : (1 < c.length ∧ c.getD 0 0 = 48 ∧ c.getD 1 0 ≠ 46)
       ∨ (2 < c.length ∧ c.getD 0 0 = 45 ∧ c.getD 1 0 = 48 ∧ c.getD 2 0 ≠ 46)
       ∨ (∃ x ∈ c, x = 120 ∨ x = 88)) :
    is_decimal c = false := by
  match c with
  | [] => simp at h
  | [a] =>
    rcases h with ⟨h1, _⟩ | ⟨h2, _⟩ | ⟨x, hx, hv⟩
    · simp at h1
    · simp at h2
    · rcases List.mem_singleton.mp hx with rfl
      simp only [is_decimal]
      rcases hv with rfl | rfl <;> simp
  | a :: b :: t =>
    rcases h with ⟨_, h0, h1⟩ | ⟨hl, h0, h1, h2⟩ | ⟨x, hx, hv⟩
    · simp only [List.getD_cons_zero] at h0
      simp only [List.getD_cons_succ, List.getD_cons_zero] at h1
      subst h0
      simp [is_decimal, h1]
    · simp only [List.getD_cons_zero] at h0
      simp only [List.getD_cons_succ, List.getD_cons_zero] at h1
      subst h0; subst h1
      match t with
      | [] => simp at hl
      | d :: t2 =>
        simp only [List.getD_cons_succ, List.getD_cons_zero] at h2
        simp [is_decimal, h2]
    · have hany : (a :: b :: t).any (fun v => v = 120 || v = 88) = true := by
        refine List.any_eq_true.mpr ⟨x, hx, ?_⟩
        rcases hv with rfl | rfl <;> simp
      simp only [is_decimal]
      split
      · split
        · rfl
        · simp [hany]
      · split
        · rfl
        · simp [hany]
      · simp [hany]

/-- C7: whenever the substring consumed by strtod has a leading zero not
followed by `.` (with another byte after it), or a `-0` not followed by `.`
(with another byte after it), or contains an `x`/`X` hex marker, the
is_decimal re-validation makes parse_number_value return Error — even though
strtod itself accepted the span. -/
theorem claim_C7_number_grammar :
    ∀ s : List Nat,
      ((1 < (strtod s).1.length ∧ (strtod s).1.getD 0 0 = 48 ∧ (strtod s).1.getD 1 0 ≠ 46)
        ∨ (2 < (strtod s).1.length ∧ (strtod s).1.getD 0 0 = 45 ∧ (strtod s).1.getD 1 0 = 48
            ∧ (strtod s).1.getD 2 0 ≠ 46)
        ∨ (∃ x ∈ (strtod s).1, x = 120 ∨ x = 88)) →
      parse_number_value s = none := by
  intro s h
  have hdec : is_decimal (strtod s).1 = false := is_decimal_false_of _ h
  simp only [parse_number_value]
  rcases hs : strtod s with ⟨c, v⟩
  rw [hs] at hdec
  simp [hs, hdec]

/-- Witness: C7 on "01", "-01" and "0x1A" (strtod consumes each whole span,
as the `decide`s verify, yet the parse fails). -/
theorem claim_C7_witness :
    parse_number_value (strBytes ("01")) = none
    ∧ parse_number_value (strBytes ("-01")) = none
    ∧ parse_number_value (strBytes ("0x1A")) = none :=
  ⟨claim_C7_number_grammar (strBytes ("01")) (by decide),
   claim_C7_number_grammar (strBytes ("-01")) (by decide),
   claim_C7_number_grammar (strBytes ("0x1A")) (by decide)⟩

theorem jsz_pos (v : JValue) : 0 < jsz v := by
  cases v <;> simp [jsz]

theorem jszObj_pos (pairs : List (List Nat × JValue)) : 0 < jszObj pairs := by
  cases pairs with
  | nil => simp [jszObj]
  | cons p rest => rcases p with ⟨k, v⟩; simp [jszObj]

theorem getn_jsz_le (pairs : List (List Nat × JValue)) (k : List Nat) (w : JValue)
    (h : json_object_getn_value pairs k = some w) : jsz w ≤ jszMaxObj pairs := by
  induction pairs with
  | nil => simp [json_object_getn_value] at h
  | cons p rest ih =>
    rcases p with ⟨k', v⟩
    by_cases hk : k' = k
    · subst hk
      rw [json_object_getn_value, List.find?_cons_of_pos _ (by simp)] at h
      simp only [Option.map_some'] at h
      cases h
      exact le_max_left _ _
    · rw [json_object_getn_value, List.find?_cons_of_neg _ (by simp [hk])] at h
      exact le_trans (ih h) (le_max_right _ _)

theorem length_add_jszMaxObj_lt (pairs : List (List Nat × JValue)) (h : pairs ≠ []) :
    pairs.length + jszMaxObj pairs < jszObj pairs := by
  induction pairs with
  | nil => simp at h
  | cons p rest ih =>
    rcases p with ⟨k, v⟩
    cases rest with
    | nil =>
      have := jsz_pos v
      simp [jszObj, jszMaxObj]
    | cons q rest2 =>
      have hih := ih (by simp)
      have hmax : max (jsz v) (jszMaxObj (q :: rest2)) ≤ jsz v + jszMaxObj (q :: rest2) := by
        rcases Nat.le_total (jsz v) (jszMaxObj (q :: rest2)) with hle | hle
        · rw [Nat.max_eq_right hle]; omega
        · rw [Nat.max_eq_left hle]; omega
      rw [show jszObj ((k, v) :: q :: rest2) = 1 + jsz v + jszObj (q :: rest2) from rfl,
        show jszMaxObj ((k, v) :: q :: rest2) = max (jsz v) (jszMaxObj (q :: rest2)) from rfl,
        List.length_cons]
      omega

mutual

theorem json_value_equals_fuel_refl :
    ∀ (f : Nat) (v : JValue), jsz v ≤ f → json_value_equals_fuel f v v = true
  | 0, v, h => absurd h (by have := jsz_pos v; omega)
  | f + 1, v, h => by
    match v with
    | .null => rfl
    | .boolean b => simp [json_value_equals_fuel]
    | .number q => simp [json_value_equals_fuel]
    | .string s => simp [json_value_equals_fuel]
    | .array items =>
      have hi : jszArr items ≤ f := by
        rw [show jsz (.array items) = 1 + jszArr items from rfl] at h; omega
      simp [json_value_equals_fuel, equals_items_refl f items hi]
    | .object pairs =>
      rw [show jsz (.object pairs) = 1 + jszObj pairs from rfl] at h
      rcases eq_or_ne pairs [] with rfl | hne
      · have hf : 1 ≤ f := by simp [jszObj] at h; omega
        match f, hf with
        | g + 1, _ => simp [json_value_equals_fuel, equals_members]
      · have hb := length_add_jszMaxObj_lt pairs hne
        have hm : pairs.length + jszMaxObj pairs < f := by omega
        simp [json_value_equals_fuel, equals_members_refl f pairs pairs hm]

theorem equals_items_refl :
    ∀ (f : Nat) (items : List JValue), jszArr items ≤ f → equals_items f items items = true
  | 0, items, h => by
    cases items with
    | nil => simp [jszArr] at h
    | cons x xs =>
      rw [show jszArr (x :: xs) = 1 + jsz x + jszArr xs from rfl] at h
      omega
  | f + 1, [], _ => rfl
  | f + 1, x :: xs, h => by
    have hx : jsz x ≤ f := by
      rw [show jszArr (x :: xs) = 1 + jsz x + jszArr xs from rfl] at h; omega
    have hxs : jszArr xs ≤ f := by
      rw [show jszArr (x :: xs) = 1 + jsz x + jszArr xs from rfl] at h; omega
    simp [equals_items, json_value_equals_fuel_refl f x hx, equals_items_refl f xs hxs]

theorem equals_members_refl :
    ∀ (f : Nat) (aAll rest : List (List Nat × JValue)),
      rest.length + jszMaxObj aAll < f → equals_members f aAll aAll rest = true
  | 0, _, _, h => absurd h (by omega)
  | f + 1, aAll, [], _ => rfl
  | f + 1, aAll, (k, _) :: rest, h => by
    have hr : rest.length + jszMaxObj aAll < f := by
      simp only [List.length_cons] at h; omega
    have hrec := equals_members_refl f aAll rest hr
    simp only [equals_members, hrec, Bool.and_true]
    match hg : json_object_getn_value aAll k with
    | none => rfl
    | some w =>
      have hw : jsz w ≤ f := by
        have := getn_jsz_le aAll k w hg
        omega
      exact json_value_equals_fuel_refl f w hw

end

/-- With duplicate-free keys, find? for a key returns the unique matching pair. -/
theorem find?_key_eq_of_mem {l : List (List Nat × JValue)} {p : List Nat × JValue}
    (hnd : (l.map Prod.fst).Nodup) (hmem : p ∈ l) (k : List Nat) (hk : p.1 = k) :
    l.find? (fun q => q.1 = k) = some p := by
  induction l with
  | nil => simp at hmem
  | cons q rest ih =>
    rcases List.mem_cons.mp hmem with rfl | hmem2
    · exact List.find?_cons_of_pos _ (by simp [hk])
    · have hnd2 : (rest.map Prod.fst).Nodup := (List.nodup_cons.mp hnd).2
      have hqk : ¬ q.1 = k := by
        intro hq
        have : p.1 ∈ rest.map Prod.fst := List.mem_map_of_mem _ hmem2
        rw [hk, ← hq] at this
        exact (List.nodup_cons.mp hnd).1 this
      rw [List.find?_cons_of_neg _ (by simp [hqk]), ih hnd2 hmem2]

/-- Key lookup is invariant under permutation of a duplicate-free pair list. -/
theorem getn_eq_of_perm_nodup {a b : List (List Nat × JValue)}
    (hnd : (a.map Prod.fst).Nodup) (hp : a.Perm b) (k : List Nat) :
    json_object_getn_value b k = json_object_getn_value a k := by
  rcases ha : a.find? (fun q => q.1 = k) with _ | p
  · have hnone : ∀ q ∈ b, ¬ (q.1 = k) := by
      intro q hq
      have := List.find?_eq_none.mp ha q (hp.mem_iff.mpr hq)
      simpa using this
    rw [json_object_getn_value, json_object_getn_value, ha,
      List.find?_eq_none.mpr (by intro q hq; simpa using hnone q hq)]
  · have hpk : p.1 = k := by
      have := List.find?_some ha
      simpa using this
    have hmem : p ∈ b := hp.mem_iff.mp (List.mem_of_find?_eq_some ha)
    have hndb : (b.map Prod.fst).Nodup := ((hp.map Prod.fst).nodup_iff).mp hnd
    rw [json_object_getn_value, json_object_getn_value, ha,
      find?_key_eq_of_mem hndb hmem k hpk]

/-- equals_members only reads its third argument through key lookups. -/
theorem equals_members_congr :
    ∀ (f : Nat) (aAll bAll rest : List (List Nat × JValue)),
      (∀ k, json_object_getn_value bAll k = json_object_getn_value aAll k) →
      equals_members f aAll bAll rest = equals_members f aAll aAll rest
  | 0, _, _, _, _ => rfl
  | _ + 1, _, _, [], _ => rfl
  | f + 1, aAll, bAll, (k, w) :: rest, h => by
    simp only [equals_members, h k, equals_members_congr f aAll bAll rest h]

/-- C9: json_value_equals deems two numbers equal exactly when their
absolute difference is below the 1e-6 epsilon, and two objects whose pair
lists are key-order permutations of one another (with the library's unique
keys) compare equal. -/
theorem claim_C9_equality :
    (∀ x y : ℚ, json_value_equals (.number x) (.number y) = decide (|x - y| < 1 / 1000000))
    ∧ (∀ a b : List (List Nat × JValue), (a.map Prod.fst).Nodup → a.Perm b →
        json_value_equals (.object a) (.object b) = true) := by
  constructor
  · intro x y; rfl
  · intro a b hnd hp
    have hF : jsz (JValue.object a) = jszObj a + 1 := by
      rw [show jsz (.object a) = 1 + jszObj a from rfl]; omega
    rw [json_value_equals, hF]
    have hlen : a.length = b.length := hp.length_eq
    have hcongr := equals_members_congr (jszObj a) a b a (getn_eq_of_perm_nodup hnd hp)
    rcases eq_or_ne a [] with rfl | hne
    · have : b = [] := List.Perm.eq_nil hp.symm
      subst this
      simp [json_value_equals_fuel, jszObj, equals_members]
    · have hb := length_add_jszMaxObj_lt a hne
      have hrefl := equals_members_refl (jszObj a) a a (by omega)
      simp [json_value_equals_fuel, hlen, hcongr, hrefl]

/-- Witness: C9's object clause at a two-key object against its reversal. -/
theorem claim_C9_witness :
    json_value_equals (.object [([97], .number 1), ([98], .null)])
      (.object [([98], .null), ([97], .number 1)]) = true :=
  claim_C9_equality.2 [([97], .number 1), ([98], .null)]
    [([98], .null), ([97], .number 1)] (by decide) (List.Perm.swap _ _ [])

theorem sAppend_fst (a b : Nat × List Nat) : (sAppend a b).1 = a.1 + b.1 := rfl

theorem sAppend_len (a b : Nat × List Nat) (h1 : a.2.length = a.1) (h2 : b.2.length = b.1) :
    (sAppend a b).2.length = (sAppend a b).1 := by
  simp [sAppend, h1, h2]

theorem append_string_len (frag : List Nat) :
    (append_string true frag).2.length = (append_string true frag).1 := by
  simp [append_string, cstrlen]

theorem append_indent_len (l : Nat) :
    (append_indent true l).2.length = (append_indent true l).1 := by
  simp [append_indent]

theorem serialize_string_go_len (esc : Bool) (l : List Nat) :
    (serialize_string_go true esc l).2.length = (serialize_string_go true esc l).1 := by
  induction l with
  | nil => rfl
  | cons c rest ih => simp [serialize_string_go, sAppend, ih]

theorem json_serialize_string_len (s : List Nat) :
    (json_serialize_string true s).2.length = (json_serialize_string true s).1 := by
  refine sAppend_len _ _ (append_string_len _) (sAppend_len _ _ ?_ (append_string_len _))
  exact serialize_string_go_len _ _

theorem serialize_string_go_count (esc : Bool) (l : List Nat) :
    (serialize_string_go false esc l) = ((serialize_string_go true esc l).1, []) := by
  induction l with
  | nil => rfl
  | cons c rest ih => simp [serialize_string_go, sAppend, ih]

theorem json_serialize_string_count (s : List Nat) :
    json_serialize_string false s = ((json_serialize_string true s).1, []) := by
  simp [json_serialize_string, sAppend, append_string, serialize_string_go_count]


theorem pair_len_of_eq {x : Nat × List Nat} {t : Nat} {b : List Nat}
    (h : x = (t, b)) (hx : x.2.length = x.1) : b.length = t := by
  subst h; exact hx

mutual

theorem bufr_len :
    ∀ (f : Nat) (p : Bool) (l : Nat) (v : JValue) (t : Nat) (b : List Nat),
      json_serialize_to_buffer_r f true p l v = some (t, b) → b.length = t
  | 0, _, _, _, _, _, h => by simp [json_serialize_to_buffer_r] at h
  | f + 1, p, l, v, t, b, h => by
    match v with
    | .null =>
      simp only [json_serialize_to_buffer_r, Option.some.injEq] at h
      exact pair_len_of_eq h (append_string_len _)
    | .boolean true =>
      simp only [json_serialize_to_buffer_r, Option.some.injEq] at h
      exact pair_len_of_eq h (append_string_len _)
    | .boolean false =>
      simp only [json_serialize_to_buffer_r, Option.some.injEq] at h
      exact pair_len_of_eq h (append_string_len _)
    | .number q =>
      simp only [json_serialize_to_buffer_r, Option.some.injEq] at h
      exact pair_len_of_eq h rfl
    | .string s =>
      simp only [json_serialize_to_buffer_r, Option.some.injEq] at h
      exact pair_len_of_eq h (json_serialize_string_len s)
    | .array items =>
      rw [json_serialize_to_buffer_r] at h
      match hw : serialize_array_items f true p l items with
      | none => rw [hw] at h; simp at h
      | some body =>
        rw [hw] at h
        simp only [Option.some.injEq] at h
        have hb : body.2.length = body.1 := items_len f p l items body.1 body.2 (by rw [hw])
        refine pair_len_of_eq h ?_
        refine sAppend_len _ _ (append_string_len _) (sAppend_len _ _ ?_ (sAppend_len _ _ hb
          (sAppend_len _ _ ?_ (append_string_len _)))) <;>
          split <;> simp [append_string_len, append_indent_len]
    | .object pairs =>
      rw [json_serialize_to_buffer_r] at h
      match hw : serialize_object_members f true p l pairs pairs with
      | none => rw [hw] at h; simp at h
      | some body =>
        rw [hw] at h
        simp only [Option.some.injEq] at h
        have hb : body.2.length = body.1 :=
          members_len f p l pairs pairs body.1 body.2 (by rw [hw])
        refine pair_len_of_eq h ?_
        refine sAppend_len _ _ (append_string_len _) (sAppend_len _ _ ?_ (sAppend_len _ _ hb
          (sAppend_len _ _ ?_ (append_string_len _)))) <;>
          split <;> simp [append_string_len, append_indent_len]

theorem items_len :
    ∀ (f : Nat) (p : Bool) (l : Nat) (items : List JValue) (t : Nat) (b : List Nat),
      serialize_array_items f true p l items = some (t, b) → b.length = t
  | 0, _, _, _, _, _, h => by simp [serialize_array_items] at h
  | f + 1, p, l, [], t, b, h => by
    simp only [serialize_array_items, Option.some.injEq] at h
    exact pair_len_of_eq h rfl
  | f + 1, p, l, v :: rest, t, b, h => by
    rw [serialize_array_items] at h
    match hv : json_serialize_to_buffer_r f true p (l + 1) v with
    | none => rw [hv] at h; simp at h
    | some sv =>
      rw [hv] at h
      match hr : serialize_array_items f true p l rest with
      | none => rw [hr] at h; simp at h
      | some srest =>
        rw [hr] at h
        simp only [Option.some.injEq] at h
        have h1 : sv.2.length = sv.1 := bufr_len f p (l + 1) v sv.1 sv.2 (by rw [hv])
        have h2 : srest.2.length = srest.1 := items_len f p l rest srest.1 srest.2 (by rw [hr])
        refine pair_len_of_eq h ?_
        refine sAppend_len _ _ ?_ (sAppend_len _ _ h1 (sAppend_len _ _ ?_
          (sAppend_len _ _ ?_ h2))) <;>
          split <;> simp [append_string_len, append_indent_len]

theorem members_len :
    ∀ (f : Nat) (p : Bool) (l : Nat) (allPairs remaining : List (List Nat × JValue))
      (t : Nat) (b : List Nat),
      serialize_object_members f true p l allPairs remaining = some (t, b) → b.length = t
  | 0, _, _, _, _, _, _, h => by simp [serialize_object_members] at h
  | f + 1, p, l, allPairs, [], t, b, h => by
    simp only [serialize_object_members, Option.some.injEq] at h
    exact pair_len_of_eq h rfl
  | f + 1, p, l, allPairs, (key, w) :: rest, t, b, h => by
    rw [serialize_object_members] at h
    match hg : json_object_getn_value allPairs key with
    | none => rw [hg] at h; simp at h
    | some tv =>
      simp only [hg] at h
      match hv : json_serialize_to_buffer_r f true p (l + 1) tv with
      | none => simp only [hv] at h; simp at h
      | some sv =>
        simp only [hv] at h
        match hr : serialize_object_members f true p l allPairs rest with
        | none => simp only [hr] at h; simp at h
        | some srest =>
          simp only [hr, Option.some.injEq] at h
          have h1 : sv.2.length = sv.1 := bufr_len f p (l + 1) tv sv.1 sv.2 (by rw [hv])
          have h2 : srest.2.length = srest.1 :=
            members_len f p l allPairs rest srest.1 srest.2 (by rw [hr])
          refine pair_len_of_eq h ?_
          refine sAppend_len _ _ ?_ (sAppend_len _ _ (json_serialize_string_len _)
            (sAppend_len _ _ (append_string_len _) (sAppend_len _ _ ?_
              (sAppend_len _ _ h1 (sAppend_len _ _ ?_ (sAppend_len _ _ ?_ h2)))))) <;>
            split <;> simp [append_string_len, append_indent_len]

end

mutual

theorem bufr_count :
    ∀ (f : Nat) (p : Bool) (l : Nat) (v : JValue),
      json_serialize_to_buffer_r f false p l v
        = (json_serialize_to_buffer_r f true p l v).map (fun pr => (pr.1, ([] : List Nat)))
  | 0, _, _, _ => rfl
  | f + 1, p, l, v => by
    match v with
    | .null => rfl
    | .boolean true => rfl
    | .boolean false => rfl
    | .number q => rfl
    | .string s =>
      simp only [json_serialize_to_buffer_r, Option.map_some']
      rw [json_serialize_string_count]
    | .array items =>
      rw [json_serialize_to_buffer_r, json_serialize_to_buffer_r, items_count f p l items]
      match hw : serialize_array_items f true p l items with
      | none => rfl
      | some body =>
        simp only [Option.map_some', Option.some.injEq]
        split <;> simp [sAppend, append_string, append_indent, cstrlen, cstr]
    | .object pairs =>
      rw [json_serialize_to_buffer_r, json_serialize_to_buffer_r, members_count f p l pairs pairs]
      match hw : serialize_object_members f true p l pairs pairs with
      | none => rfl
      | some body =>
        simp only [Option.map_some', Option.some.injEq]
        split <;> simp [sAppend, append_string, append_indent, cstrlen, cstr]

theorem items_count :
    ∀ (f : Nat) (p : Bool) (l : Nat) (items : List JValue),
      serialize_array_items f false p l items
        = (serialize_array_items f true p l items).map (fun pr => (pr.1, ([] : List Nat)))
  | 0, _, _, _ => rfl
  | f + 1, p, l, [] => rfl
  | f + 1, p, l, v :: rest => by
    rw [serialize_array_items, serialize_array_items, bufr_count f p (l + 1) v,
      items_count f p l rest]
    match hv : json_serialize_to_buffer_r f true p (l + 1) v with
    | none => rfl
    | some sv =>
      match hr : serialize_array_items f true p l rest with
      | none => rfl
      | some srest =>
        simp only [Option.map_some', Option.some.injEq]
        split <;> split <;> simp [sAppend, append_string, append_indent, cstrlen, cstr]

theorem members_count :
    ∀ (f : Nat) (p : Bool) (l : Nat) (allPairs remaining : List (List Nat × JValue)),
      serialize_object_members f false p l allPairs remaining
        = (serialize_object_members f true p l allPairs remaining).map
            (fun pr => (pr.1, ([] : List Nat)))
  | 0, _, _, _, _ => rfl
  | f + 1, p, l, allPairs, [] => rfl
  | f + 1, p, l, allPairs, (key, w) :: rest => by
    rw [serialize_object_members, serialize_object_members]
    match hg : json_object_getn_value allPairs key with
    | none => rfl
    | some tv =>
      simp only [hg]
      rw [bufr_count f p (l + 1) tv, members_count f p l allPairs rest]
      match hv : json_serialize_to_buffer_r f true p (l + 1) tv with
      | none => rfl
      | some sv =>
        match hr : serialize_object_members f true p l allPairs rest with
        | none => rfl
        | some srest =>
          simp only [Option.map_some', Option.some.injEq]
          rw [json_serialize_string_count]
          split <;> split <;> simp [sAppend, append_string, append_indent, cstrlen, cstr]

end

/-- C2: for every tree and both modes, the counting pass (NULL buffer, as
json_serialization_size runs it) returns exactly the byte count the writing
pass produces: the two runs succeed or fail together with equal totals, the
written bytes' length equals the total, and both size entry points equal the
emitted length plus the terminator byte. -/
theorem claim_C2_two_pass :
    ∀ (v : JValue) (is_pretty : Bool) (level fuel : Nat),
      (json_serialize_to_buffer_r fuel false is_pretty level v).map Prod.fst
        = (json_serialize_to_buffer_r fuel true is_pretty level v).map Prod.fst
      ∧ (json_serialize_to_buffer_r fuel true is_pretty level v).map (fun pr => pr.2.length)
        = (json_serialize_to_buffer_r fuel true is_pretty level v).map Prod.fst
      ∧ json_serialization_size v
          = (match json_serialize_to_string v with
             | some out => out.length + 1
             | none => 0)
      ∧ json_serialization_size_pretty v
          = (match json_serialize_to_string_pretty v with
             | some out => out.length + 1
             | none => 0) := by
  intro v is_pretty level fuel
  refine ⟨?_, ?_, ?_, ?_⟩
  · rw [bufr_count]
    cases json_serialize_to_buffer_r fuel true is_pretty level v <;> rfl
  · match hw : json_serialize_to_buffer_r fuel true is_pretty level v with
    | none => rfl
    | some pr =>
      rcases pr with ⟨t, b⟩
      simp [bufr_len fuel is_pretty level v t b hw]
  · rw [json_serialization_size, json_serialize_to_string, bufr_count]
    match hw : json_serialize_to_buffer_r (jsz v) true false 0 v with
    | none => rfl
    | some pr =>
      rcases pr with ⟨t, b⟩
      simp [bufr_len (jsz v) false 0 v t b hw]
  · rw [json_serialization_size_pretty, json_serialize_to_string_pretty, bufr_count]
    match hw : json_serialize_to_buffer_r (jsz v) true true 0 v with
    | none => rfl
    | some pr =>
      rcases pr with ⟨t, b⟩
      simp [bufr_len (jsz v) true 0 v t b hw]

theorem listNest_succ (k : Nat) (rest : List Nat) :
    listNest (k + 1) ++ rest = 91 :: (listNest k ++ (93 :: rest)) := by
  have h91 : List.replicate (k + 1) (91 : Nat) = 91 :: List.replicate k 91 := rfl
  have h93 : List.replicate (k + 1) (93 : Nat) = List.replicate k 93 ++ [93] :=
    List.replicate_succ' k 93
  simp only [listNest, h91, h93]
  simp

theorem parse_listNest :
    ∀ (k fuel n : Nat) (rest : List Nat),
      1 ≤ k → n + k ≤ MAX_NESTING + 1 → 2 * k ≤ fuel →
      parse_value fuel (listNest k ++ rest) n = some (deepArr (k - 1), rest)
  | 0, _, _, _, hk, _, _ => absurd hk (by omega)
  | 1, fuel, n, rest, _, hn, hf => by
    match fuel, hf with
    | f + 1, _ =>
      rw [show listNest 1 ++ rest = 91 :: 93 :: rest from rfl]
      rw [parse_value]
      rw [if_neg (by simp only [MAX_NESTING] at hn ⊢; omega)]
      simp [skip_whitespaces, is_space_byte, deepArr]
  | k + 2, fuel, n, rest, _, hn, hf => by
    match fuel, hf with
    | f + 1, hf =>
      match f, hf with
      | g + 1, hf =>
        have hrec := parse_listNest (k + 1) g (n + 1) (93 :: rest)
          (by omega) (by omega) (by omega)
        rw [listNest_succ, parse_value]
        rw [if_neg (by simp only [MAX_NESTING] at hn ⊢; omega)]
        have hws : skip_whitespaces (91 :: (listNest (k + 1) ++ (93 :: rest)))
            = 91 :: (listNest (k + 1) ++ (93 :: rest)) := by
          simp [skip_whitespaces, is_space_byte]
        rw [hws]
        have hhead : ∃ t, listNest (k + 1) ++ (93 :: rest) = 91 :: t := by
          refine ⟨listNest k ++ (93 :: 93 :: rest), ?_⟩
          exact listNest_succ k (93 :: rest)
        rcases hhead with ⟨t, ht⟩
        simp only [ht]
        have hrec2 : parse_value g (91 :: t) (n + 1) = some (deepArr k, 93 :: rest) := by
          rw [← ht]
          simpa using hrec
        rw [if_neg (by decide : ¬ ((91 : Nat) = 123)), if_pos trivial]
        have hws2 : skip_whitespaces (91 :: t) = 91 :: t := by
          simp [skip_whitespaces, is_space_byte]
        rw [hws2]
        rw [parse_array_items]
        simp only [hrec2]
        have hws3 : skip_whitespaces (93 :: rest) = 93 :: rest := by
          simp [skip_whitespaces, is_space_byte]
        simp only [hws3]
        rw [show deepArr (k + 2 - 1) = .array [deepArr k] from rfl]
        all_goals first
          | rfl
          | simp

theorem parse_listNest_fail :
    ∀ (k fuel n : Nat) (rest : List Nat),
      1 ≤ k → MAX_NESTING + 2 ≤ n + k →
      parse_value fuel (listNest k ++ rest) n = none
  | 0, _, _, _, hk, _ => absurd hk (by omega)
  | 1, fuel, n, rest, _, hn => by
    cases fuel with
    | zero => rfl
    | succ f =>
      rw [show listNest 1 ++ rest = 91 :: 93 :: rest from rfl, parse_value]
      rw [if_pos (by simp only [MAX_NESTING] at hn ⊢; omega)]
  | k + 2, fuel, n, rest, _, hn => by
    cases fuel with
    | zero => rfl
    | succ f =>
      rw [listNest_succ, parse_value]
      by_cases hbig : n > MAX_NESTING
      · rw [if_pos hbig]
      · rw [if_neg hbig]
        have hws : skip_whitespaces (91 :: (listNest (k + 1) ++ (93 :: rest)))
            = 91 :: (listNest (k + 1) ++ (93 :: rest)) := by
          simp [skip_whitespaces, is_space_byte]
        rw [hws]
        obtain ⟨t, ht⟩ : ∃ t, listNest (k + 1) ++ (93 :: rest) = 91 :: t :=
          ⟨listNest k ++ (93 :: 93 :: rest), listNest_succ k (93 :: rest)⟩
        simp only [ht]
        rw [if_neg (by decide : ¬ ((91 : Nat) = 123)), if_pos trivial]
        have hws2 : skip_whitespaces (91 :: t) = 91 :: t := by
          simp [skip_whitespaces, is_space_byte]
        rw [hws2]
        cases f with
        | zero => rfl
        | succ g =>
          have hrec : parse_value g (91 :: t) (n + 1) = none := by
            rw [← ht]
            exact parse_listNest_fail (k + 1) g (n + 1) (93 :: rest) (by omega) (by omega)
          rw [parse_array_items]
          simp only [hrec]
          all_goals first
            | rfl
            | simp

/-- json_parse_string on `k`-deep brackets, within the limit. -/
theorem json_parse_listNest (k : Nat) (h1 : 1 ≤ k) (h2 : k ≤ MAX_NESTING + 1) :
    json_parse_string (listNest k) = some (deepArr (k - 1)) := by
  obtain ⟨m, rfl⟩ : ∃ m, k = m + 1 := ⟨k - 1, by omega⟩
  have hbom : (listNest (m + 1)).take 3 ≠ [239, 187, 191] := by
    have := listNest_succ m []
    rw [List.append_nil] at this
    rw [this]
    simp
  rw [json_parse_string, if_neg hbom]
  have hlen : (listNest (m + 1)).length = 2 * (m + 1) := by
    simp [listNest]; omega
  have := parse_listNest (m + 1) (parse_fuel (listNest (m + 1))) 0 [] (by omega)
    (by omega) (by rw [parse_fuel, hlen]; omega)
  rw [List.append_nil] at this
  rw [this]
  rfl

/-- json_parse_string on `k`-deep brackets, beyond the limit. -/
theorem json_parse_listNest_fail (k : Nat) (h2 : MAX_NESTING + 2 ≤ k) :
    json_parse_string (listNest k) = none := by
  obtain ⟨m, rfl⟩ : ∃ m, k = m + 1 := ⟨k - 1, by simp only [MAX_NESTING] at h2; omega⟩
  have hbom : (listNest (m + 1)).take 3 ≠ [239, 187, 191] := by
    have := listNest_succ m []
    rw [List.append_nil] at this
    rw [this]
    simp
  rw [json_parse_string, if_neg hbom]
  have := parse_listNest_fail (m + 1) (parse_fuel (listNest (m + 1))) 0 []
    (by omega) (by omega)
  rw [List.append_nil] at this
  rw [this]
  rfl

/-- C3 (amended): the depth counter is handed to parse_value already
incremented for the value's own container, so an input of `k` nested arrays
parses while the counter values 0..k-1 stay at or below MAX_NESTING: 2048
levels parse, 2049 levels still parse, and 2050 levels are the first to be
rejected by the `nesting > MAX_NESTING` check. -/
theorem claim_C3_depth_limit :
    json_parse_string (listNest 2048) = some (deepArr 2047)
    ∧ json_parse_string (listNest 2049) = some (deepArr 2048)
    ∧ json_parse_string (listNest 2050) = none :=
  ⟨json_parse_listNest 2048 (by omega) (by simp [MAX_NESTING]),
   json_parse_listNest 2049 (by omega) (by simp [MAX_NESTING]),
   json_parse_listNest_fail 2050 (by simp [MAX_NESTING])⟩

/-- C3 counterexample: the claim says an input nested 2049 levels deep
returns Error, but parse_value accepts it (the innermost parse_value call
receives depth 2048, which does not exceed MAX_NESTING). -/
theorem claim_C3_counterexample :
    json_parse_string (listNest 2049) = some (deepArr 2048)
    ∧ json_parse_string (listNest 2049) ≠ none := by
  have h := json_parse_listNest 2049 (by omega) (by simp [MAX_NESTING])
  exact ⟨h, by rw [h]; simp⟩

theorem numBoundary_comma (t : List Nat) : numBoundary (44 :: t) := Or.inl rfl
theorem numBoundary_rbracket (t : List Nat) : numBoundary (93 :: t) := Or.inr (Or.inl rfl)
theorem numBoundary_rbrace (t : List Nat) : numBoundary (125 :: t) := Or.inr (Or.inr rfl)

/-! Decimal digit printing facts. -/

theorem natDigitsAux_congr :
    ∀ n f g, n < f → n < g → natDigitsAux f n = natDigitsAux g n := by
  intro n
  induction n using Nat.strongRecOn with
  | _ n ih =>
    intro f g hf hg
    match f, g with
    | f + 1, g + 1 =>
      rw [natDigitsAux, natDigitsAux]
      by_cases h10 : n < 10
      · simp [h10]
      · have hdiv : n / 10 < n := Nat.div_lt_self (by omega) (by omega)
        simp only [if_neg h10]
        rw [ih (n / 10) hdiv f g (by omega) (by omega)]

theorem natDigits_unfold (n : Nat) :
    natDigits n = if n < 10 then [48 + n] else natDigits (n / 10) ++ [48 + n % 10] := by
  rw [natDigits, natDigitsAux]
  by_cases h10 : n < 10
  · simp [h10]
  · have hdiv : n / 10 < n := Nat.div_lt_self (by omega) (by omega)
    simp only [if_neg h10]
    rw [natDigits, natDigitsAux_congr (n / 10) n (n / 10 + 1) (by omega) (by omega)]

theorem natDigits_ne_nil (n : Nat) : natDigits n ≠ [] := by
  rw [natDigits_unfold]
  split <;> simp

theorem natDigits_all_digit (n : Nat) : ∀ d ∈ natDigits n, is_digit_byte d = true := by
  induction n using Nat.strongRecOn with
  | _ n ih =>
    rw [natDigits_unfold]
    by_cases h10 : n < 10
    · simp only [if_pos h10, List.mem_singleton]
      rintro d rfl
      simp [is_digit_byte]; omega
    · have hdiv : n / 10 < n := Nat.div_lt_self (by omega) (by omega)
      simp only [if_neg h10]
      intro d hd
      rcases List.mem_append.mp hd with h | h
      · exact ih (n / 10) hdiv d h
      · rcases List.mem_singleton.mp h with rfl
        have := Nat.mod_lt n (show 0 < 10 from by omega)
        simp [is_digit_byte]; omega

theorem natDigits_head_pos (n : Nat) (hn : 1 ≤ n) :
    ∃ d t, natDigits n = d :: t ∧ is_digit_byte d = true ∧ d ≠ 48 := by
  induction n using Nat.strongRecOn with
  | _ n ih =>
    rw [natDigits_unfold]
    by_cases h10 : n < 10
    · refine ⟨48 + n, [], by simp [h10], by simp [is_digit_byte]; omega, by omega⟩
    · have hdiv : n / 10 < n := Nat.div_lt_self (by omega) (by omega)
      obtain ⟨d, t, hdt, hdig, hne⟩ := ih (n / 10) hdiv (by omega)
      exact ⟨d, t ++ [48 + n % 10], by simp [h10, hdt], hdig, hne⟩

theorem natDigits_length_le (n k : Nat) (h : n < 10 ^ k) (hk : 1 ≤ k) :
    (natDigits n).length ≤ k := by
  induction k generalizing n with
  | zero => omega
  | succ k ih =>
    rw [natDigits_unfold]
    by_cases h10 : n < 10
    · rw [if_pos h10]
      simp
    · have hdiv : n / 10 < 10 ^ k := by
        rw [Nat.div_lt_iff_lt_mul (by omega)]
        calc n < 10 ^ (k + 1) := h
        _ = 10 ^ k * 10 := by ring
      have hk1 : 1 ≤ k := by
        by_contra hc
        have : k = 0 := by omega
        subst this
        simp at hdiv
        omega
      have := ih (n / 10) hdiv hk1
      simp only [if_neg h10, List.length_append, List.length_cons, List.length_nil]
      omega

theorem natOfDigits_append (A B : List Nat) :
    natOfDigits (A ++ B) = natOfDigits A * 10 ^ B.length + natOfDigits B := by
  have gen : ∀ (l : List Nat) (i : Nat),
      l.foldl (fun acc d => acc * 10 + (d - 48)) i = i * 10 ^ l.length + natOfDigits l := by
    intro l
    induction l with
    | nil => intro i; simp [natOfDigits]
    | cons d t ih =>
      intro i
      rw [natOfDigits, List.foldl_cons, List.foldl_cons, ih, ih (0 * 10 + (d - 48))]
      simp [List.length_cons]
      ring
  rw [natOfDigits, List.foldl_append, ← natOfDigits, gen]

theorem natOfDigits_natDigits (n : Nat) : natOfDigits (natDigits n) = n := by
  induction n using Nat.strongRecOn with
  | _ n ih =>
    rw [natDigits_unfold]
    by_cases h10 : n < 10
    · rw [if_pos h10]
      simp [natOfDigits]
    · have hdiv : n / 10 < n := Nat.div_lt_self (by omega) (by omega)
      simp only [if_neg h10]
      rw [natOfDigits_append, ih (n / 10) hdiv]
      simp [natOfDigits]
      omega

theorem natOfDigits_replicate_zero (k : Nat) (B : List Nat) :
    natOfDigits (List.replicate k 48 ++ B) = natOfDigits B := by
  rw [natOfDigits_append]
  have : natOfDigits (List.replicate k 48) = 0 := by
    induction k with
    | zero => rfl
    | succ k ih =>
      rw [List.replicate_succ, natOfDigits, List.foldl_cons]
      simpa [natOfDigits] using ih
  simp [this]

/-! strtod recovers a printed number exactly. -/

theorem digit_not_space {d : Nat} (h : is_digit_byte d = true) : is_space_byte d = false := by
  simp only [is_digit_byte, Bool.and_eq_true, decide_eq_true_eq] at h
  simp only [is_space_byte, Bool.or_eq_false_iff, decide_eq_false_iff_not, Bool.and_eq_false_iff]
  omega

theorem boundary_head_facts {c : Nat} {t : List Nat} (h : numBoundary (c :: t)) :
    is_digit_byte c = false ∧ c ≠ 46 ∧ byteIsLetter c 101 = false := by
  rcases h with rfl | rfl | rfl <;> refine ⟨by decide, by decide, by decide⟩

theorem takeWhile_digit_boundary {rest : List Nat} (h : numBoundary rest) :
    rest.takeWhile is_digit_byte = [] := by
  match rest with
  | [] => rfl
  | c :: t => exact List.takeWhile_cons_of_neg (by simp [(boundary_head_facts h).1])

theorem dropWhile_digit_boundary {rest : List Nat} (h : numBoundary rest) :
    rest.dropWhile is_digit_byte = rest := by
  match rest with
  | [] => rfl
  | c :: t => exact List.dropWhile_cons_of_neg (by simp [(boundary_head_facts h).1])

theorem strtodExponent_boundary {rest : List Nat} (h : numBoundary rest) :
    strtodExponent 101 rest = ([], 0, rest) := by
  match rest with
  | [] => rfl
  | c :: t => rcases h with rfl | rfl | rfl <;> rfl

theorem dwp_zero (m : Nat) : digitsWithPoint m 0 = natDigits m := by
  rw [digitsWithPoint]
  simp

theorem dwp_pos (m k : Nat) (hk : k ≠ 0) :
    digitsWithPoint m k
      = natDigits (m / 10 ^ k) ++ 46 ::
          (List.replicate (k - (natDigits (m % 10 ^ k)).length) 48 ++ natDigits (m % 10 ^ k)) := by
  rw [digitsWithPoint]
  simp [hk]

/-- The fraction digit block printed for `m % 10^k` has exactly `k` digits. -/
theorem frac_block_length (m k : Nat) (hk : 1 ≤ k) :
    (List.replicate (k - (natDigits (m % 10 ^ k)).length) 48 ++ natDigits (m % 10 ^ k)).length
      = k := by
  have hlt : m % 10 ^ k < 10 ^ k := Nat.mod_lt _ (Nat.pos_pow_of_pos _ (by omega))
  have hle := natDigits_length_le (m % 10 ^ k) k hlt hk
  simp [List.length_append, List.length_replicate]
  omega

theorem frac_block_digits (m k : Nat) :
    ∀ d ∈ List.replicate (k - (natDigits (m % 10 ^ k)).length) 48 ++ natDigits (m % 10 ^ k),
      is_digit_byte d = true := by
  intro d hd
  rcases List.mem_append.mp hd with h | h
  · rcases List.eq_of_mem_replicate h with rfl
    decide
  · exact natDigits_all_digit _ d h

theorem strtodDecimalTail_dwp (m k : Nat) (rest : List Nat) (hb : numBoundary rest) :
    strtodDecimalTail (digitsWithPoint m k ++ rest)
      = some (digitsWithPoint m k, (m : ℚ) / 10 ^ k) := by
  by_cases hk : k = 0
  · subst hk
    rw [dwp_zero]
    simp only [strtodDecimalTail]
    rw [List.takeWhile_append_of_pos (natDigits_all_digit m),
      List.dropWhile_append_of_pos (natDigits_all_digit m),
      takeWhile_digit_boundary hb, dropWhile_digit_boundary hb]
    rcases rest with _ | ⟨c, t⟩
    · simp [natDigits_ne_nil m, strtodExponent, scalePow, natOfDigits_natDigits]
    · rcases hb with rfl | rfl | rfl <;>
        simp [natDigits_ne_nil m, strtodExponent, byteIsLetter, scalePow,
          natOfDigits_natDigits]
  · rw [dwp_pos m k hk]
    simp only [strtodDecimalTail]
    rw [List.append_assoc, List.cons_append,
      List.takeWhile_append_of_pos (natDigits_all_digit _),
      List.dropWhile_append_of_pos (natDigits_all_digit _),
      List.takeWhile_cons_of_neg (by decide), List.dropWhile_cons_of_neg (by decide)]
    simp only []
    rw [List.takeWhile_append_of_pos (frac_block_digits m k),
      List.dropWhile_append_of_pos (frac_block_digits m k),
      takeWhile_digit_boundary hb, dropWhile_digit_boundary hb,
      strtodExponent_boundary hb]
    have hm : m / 10 ^ k * 10 ^ k + m % 10 ^ k = m := by
      rw [Nat.mul_comm]
      exact Nat.div_add_mod m (10 ^ k)
    simp only [List.append_nil, natOfDigits_append, natOfDigits_replicate_zero,
      natOfDigits_natDigits, frac_block_length m k (by omega), hm, scalePow]
    simp [natDigits_ne_nil]
    have hz : natOfDigits (List.replicate (k - (natDigits (m % 10 ^ k)).length) 48) = 0 := by
      simpa [natOfDigits] using
        natOfDigits_replicate_zero (k - (natDigits (m % 10 ^ k)).length) []
    rw [hz]
    have hmq : ((m / 10 ^ k : ℕ) : ℚ) * 10 ^ k + ((m % 10 ^ k : ℕ) : ℚ) = (m : ℚ) := by
      exact_mod_cast hm
    simp only [Nat.cast_zero, zero_mul, zero_add]
    rw [hmq]

theorem digit_not_letter {b : Nat} (h : is_digit_byte b = true) (l : Nat) (hl : 97 ≤ l) :
    byteIsLetter b l = false := by
  simp only [is_digit_byte, Bool.and_eq_true, decide_eq_true_eq] at h
  simp only [byteIsLetter, Bool.or_eq_false_iff, decide_eq_false_iff_not]
  omega

theorem matchInf_digit {b : Nat} (h : is_digit_byte b = true) (l : List Nat) :
    matchInf (b :: l) = none := by
  match l with
  | [] => rfl
  | [_] => rfl
  | n :: f :: r => simp [matchInf, digit_not_letter h 105 (by omega)]

theorem matchNan_digit {b : Nat} (h : is_digit_byte b = true) (l : List Nat) :
    matchNan (b :: l) = none := by
  match l with
  | [] => rfl
  | [_] => rfl
  | n :: f :: r => simp [matchNan, digit_not_letter h 110 (by omega)]

theorem dwp_head (M k : Nat) :
    ∃ b t, digitsWithPoint M k = b :: t ∧ is_digit_byte b = true := by
  rw [digitsWithPoint]
  by_cases hk : k = 0
  · simp only [if_pos hk]
    rcases hnd : natDigits M with _ | ⟨b, t⟩
    · exact absurd hnd (natDigits_ne_nil M)
    · exact ⟨b, t, rfl, natDigits_all_digit M b (by rw [hnd]; exact List.mem_cons_self _ _)⟩
  · simp only [if_neg hk]
    rcases hnd : natDigits (M / 10 ^ k) with _ | ⟨b, t⟩
    · exact absurd hnd (natDigits_ne_nil _)
    · exact ⟨b, t ++ [46] ++ (List.replicate (k - (natDigits (M % 10 ^ k)).length) 48 ++
        natDigits (M % 10 ^ k)), by simp,
        natDigits_all_digit (M / 10 ^ k) b (by rw [hnd]; exact List.mem_cons_self _ _)⟩

theorem dwp_all (M k : Nat) :
    ∀ b ∈ digitsWithPoint M k, is_digit_byte b = true ∨ b = 46 := by
  intro b hb
  rw [digitsWithPoint] at hb
  by_cases hk : k = 0
  · rw [if_pos hk] at hb
    exact Or.inl (natDigits_all_digit M b hb)
  · rw [if_neg hk] at hb
    simp only [List.append_assoc, List.mem_append, List.mem_cons, List.not_mem_nil,
      or_false] at hb
    rcases hb with h | rfl | h | h
    · exact Or.inl (natDigits_all_digit _ b h)
    · exact Or.inr rfl
    · rcases List.eq_of_mem_replicate h with rfl
      exact Or.inl (by decide)
    · exact Or.inl (natDigits_all_digit _ b h)

theorem dwp_not_hex (M k : Nat) (rest : List Nat) (hb : numBoundary rest) :
    ¬((digitsWithPoint M k ++ rest).take 2 = [48, 120] ∨
      (digitsWithPoint M k ++ rest).take 2 = [48, 88]) := by
  obtain ⟨b, t, hbt, hdig⟩ := dwp_head M k
  have hb2all : ∀ b2 ∈ t, is_digit_byte b2 = true ∨ b2 = 46 := by
    intro b2 hm
    exact dwp_all M k b2 (by rw [hbt]; exact List.mem_cons_of_mem _ hm)
  rw [hbt, List.cons_append]
  rcases t with _ | ⟨b2, t2⟩
  · rcases rest with _ | ⟨c, t3⟩
    · simp
    · rcases hb with rfl | rfl | rfl <;> simp
  · have hb2 : is_digit_byte b2 = true ∨ b2 = 46 := hb2all b2 (by simp)
    rcases hb2 with h | rfl
    · simp only [is_digit_byte, Bool.and_eq_true, decide_eq_true_eq] at h
      rintro (h' | h') <;> (simp at h'; omega)
    · rintro (h' | h') <;> simp at h'

theorem matchInf_dwp (M k : Nat) (l : List Nat) :
    matchInf (digitsWithPoint M k ++ l) = none := by
  obtain ⟨b, t, hbt, hdig⟩ := dwp_head M k
  rw [hbt, List.cons_append]
  exact matchInf_digit hdig _

theorem matchNan_dwp (M k : Nat) (l : List Nat) :
    matchNan (digitsWithPoint M k ++ l) = none := by
  obtain ⟨b, t, hbt, hdig⟩ := dwp_head M k
  rw [hbt, List.cons_append]
  exact matchNan_digit hdig _

theorem strtodBody_dwp (M k : Nat) (rest : List Nat) (hb : numBoundary rest) :
    strtodBody (digitsWithPoint M k ++ rest)
      = (digitsWithPoint M k, some ((M : ℚ) / 10 ^ k)) := by
  rw [strtodBody, if_neg (dwp_not_hex M k rest hb)]
  rw [matchInf_dwp, matchNan_dwp, strtodDecimalTail_dwp M k rest hb]

theorem strtodSign_other {b : Nat} (t : List Nat) (h45 : b ≠ 45) (h43 : b ≠ 43) :
    strtodSign (b :: t) = ([], false, b :: t) := by
  rw [strtodSign.eq_def]
  split
  · rename_i heq
    injection heq with h1 _
    exact absurd h1 h45
  · rename_i heq
    injection heq with h1 _
    exact absurd h1 h43
  · rfl

theorem strtod_dwp (M k : Nat) (rest : List Nat) (hb : numBoundary rest) :
    strtod (digitsWithPoint M k ++ rest)
      = (digitsWithPoint M k, some ((M : ℚ) / 10 ^ k)) := by
  obtain ⟨b, t, hbt, hdig⟩ := dwp_head M k
  have hsp : is_space_byte b = false := digit_not_space hdig
  have hdd : 48 ≤ b ∧ b ≤ 57 := by
    simpa [is_digit_byte] using hdig
  simp only [strtod]
  rw [hbt, List.cons_append, List.takeWhile_cons_of_neg (by simp [hsp]),
    List.dropWhile_cons_of_neg (by simp [hsp]),
    strtodSign_other _ (by omega) (by omega), ← List.cons_append, ← hbt,
    strtodBody_dwp M k rest hb]
  simp only []
  rw [if_neg (by rw [hbt]; simp)]
  simp

theorem dwp_ne_nil (M k : Nat) : digitsWithPoint M k ≠ [] := by
  obtain ⟨b, t, hbt, _⟩ := dwp_head M k
  rw [hbt]
  simp

theorem den_dvd_of_printable (q : ℚ) (hp : number_printable q = true) :
    q.den ∣ 10 ^ max (pFactor 2 q.den) (pFactor 5 q.den) := by
  simpa only [number_printable, decide_eq_true_eq] using hp

theorem dwp_value_abs (q : ℚ) (hp : number_printable q = true) :
    ((q.num.natAbs * (10 ^ max (pFactor 2 q.den) (pFactor 5 q.den) / q.den) : ℕ) : ℚ)
      / 10 ^ max (pFactor 2 q.den) (pFactor 5 q.den) = |q| := by
  have hdvd := den_dvd_of_printable q hp
  have hd0 : ((q.den : ℕ) : ℚ) ≠ 0 := by
    exact_mod_cast q.den_nz
  have habs : |q| = |(q.num : ℚ)| / ((q.den : ℕ) : ℚ) := by
    conv_lhs => rw [← Rat.num_div_den q]
    rw [abs_div,
      abs_of_pos (show (0 : ℚ) < ((q.den : ℕ) : ℚ) from by exact_mod_cast q.pos)]
  rw [Nat.cast_mul, Nat.cast_div hdvd hd0, habs]
  push_cast [Int.cast_natAbs]
  have hK0 : ((10 : ℚ) ^ max (pFactor 2 q.den) (pFactor 5 q.den)) ≠ 0 := by positivity
  field_simp
  ring

theorem strtod_serialize_number (q : ℚ) (hp : number_printable q = true)
    (rest : List Nat) (hb : numBoundary rest) :
    strtod (serialize_number q ++ rest) = (serialize_number q, some q) := by
  by_cases hq0 : q = 0
  · subst hq0
    rw [show serialize_number 0 = digitsWithPoint 0 0 from by decide]
    rw [strtod_dwp 0 0 rest hb]
    norm_num
  · have hmod : 10 ^ max (pFactor 2 q.den) (pFactor 5 q.den) % q.den = 0 :=
      Nat.dvd_iff_mod_eq_zero.mp (den_dvd_of_printable q hp)
    have hval := dwp_value_abs q hp
    by_cases hneg : q.num < 0
    · have hqneg : q < 0 := by
        by_contra hcon
        push_neg at hcon
        exact absurd (Rat.num_nonneg.mpr hcon) (by omega)
      have hser : serialize_number q
          = 45 :: digitsWithPoint
              (q.num.natAbs * (10 ^ max (pFactor 2 q.den) (pFactor 5 q.den) / q.den))
              (max (pFactor 2 q.den) (pFactor 5 q.den)) := by
        rw [serialize_number, if_neg hq0]
        simp only [if_pos hneg, if_pos hmod]
        rfl
      rw [hser, List.cons_append]
      simp only [strtod]
      rw [List.takeWhile_cons_of_neg (by decide), List.dropWhile_cons_of_neg (by decide),
        show ∀ X : List Nat, strtodSign (45 :: X) = ([45], true, X) from fun X => rfl,
        strtodBody_dwp _ _ rest hb]
      simp only []
      rw [if_neg (dwp_ne_nil _ _)]
      simp only [List.nil_append, List.singleton_append, Option.map_some]
      rw [hval, abs_of_neg hqneg]
      simp
    · have hqpos : 0 < q := by
        have hnum0 : q.num ≠ 0 := fun h => hq0 (by rwa [Rat.num_eq_zero] at h)
        exact Rat.num_pos.mp (by omega)
      have hser : serialize_number q
          = digitsWithPoint
              (q.num.natAbs * (10 ^ max (pFactor 2 q.den) (pFactor 5 q.den) / q.den))
              (max (pFactor 2 q.den) (pFactor 5 q.den)) := by
        rw [serialize_number, if_neg hq0]
        simp only [if_neg hneg, if_pos hmod]
        rfl
      rw [hser, strtod_dwp _ _ rest hb, hval, abs_of_pos hqpos]

theorem no_hex (s : List Nat) (h : ∀ b ∈ s, is_digit_byte b = true ∨ b = 46 ∨ b = 45) :
    (s.any fun c => c = 120 || c = 88) = false := by
  rw [List.any_eq_false]
  intro c hc
  rcases h c hc with hd | rfl | rfl
  · simp only [is_digit_byte, Bool.and_eq_true, decide_eq_true_eq] at hd
    simp only [Bool.or_eq_true, decide_eq_true_eq, not_or]
    omega
  · decide
  · decide

theorem dwp_no_hex (M k : Nat) :
    ((digitsWithPoint M k).any fun c => c = 120 || c = 88) = false := by
  apply no_hex
  intro b hb
  rcases dwp_all M k b hb with h | rfl
  · exact Or.inl h
  · exact Or.inr (Or.inl rfl)

theorem is_decimal_catch {b : Nat} (t : List Nat) (h48 : b ≠ 48) (h45 : b ≠ 45) :
    is_decimal (b :: t) = !((b :: t).any fun c => c = 120 || c = 88) := by
  rw [is_decimal.eq_def]
  split
  · rename_i heq
    injection heq with h1 _
    exact absurd h1 h48
  · rename_i heq
    injection heq with h1 _
    exact absurd h1 h45
  · rfl

theorem is_decimal_45 {b : Nat} (t : List Nat) (h48 : b ≠ 48) :
    is_decimal (45 :: b :: t) = !((45 :: b :: t).any fun c => c = 120 || c = 88) := by
  rw [is_decimal.eq_def]
  split
  · rename_i heq
    injection heq with h1 _
    exact absurd h1 (by decide)
  · rename_i heq
    injection heq with _ h2
    injection h2 with h1 _
    exact absurd h1 h48
  · rfl

theorem is_decimal_48_46 (t : List Nat) :
    is_decimal (48 :: 46 :: t) = !((48 :: 46 :: t).any fun c => c = 120 || c = 88) := rfl

theorem is_decimal_45_48_46 (t : List Nat) :
    is_decimal (45 :: 48 :: 46 :: t)
      = !((45 :: 48 :: 46 :: t).any fun c => c = 120 || c = 88) := rfl

theorem dwp_shape (M k : Nat) (h : M ≠ 0) :
    (∃ t, digitsWithPoint M k = 48 :: 46 :: t) ∨
    (∃ b t, digitsWithPoint M k = b :: t ∧ is_digit_byte b = true ∧ b ≠ 48) := by
  rw [digitsWithPoint]
  by_cases hk : k = 0
  · rw [if_pos hk]
    obtain ⟨b, t, hbt, hdig, h48⟩ := natDigits_head_pos M (by omega)
    exact Or.inr ⟨b, t, hbt, hdig, h48⟩
  · rw [if_neg hk]
    by_cases hdiv : M / 10 ^ k = 0
    · rw [hdiv, show natDigits 0 = [48] from rfl]
      exact Or.inl ⟨List.replicate (k - (natDigits (M % 10 ^ k)).length) 48 ++
        natDigits (M % 10 ^ k), by simp⟩
    · obtain ⟨b, t, hbt, hdig, h48⟩ :=
        natDigits_head_pos (M / 10 ^ k) (Nat.pos_of_ne_zero hdiv)
      rw [hbt]
      exact Or.inr ⟨b, t ++ [46] ++ (List.replicate (k - (natDigits (M % 10 ^ k)).length) 48 ++
        natDigits (M % 10 ^ k)), by simp, hdig, h48⟩

theorem serialize_number_eq (q : ℚ) (hp : number_printable q = true) (h0 : q ≠ 0) :
    serialize_number q
      = (if q.num < 0 then [45] else []) ++
        digitsWithPoint
          (q.num.natAbs * (10 ^ max (pFactor 2 q.den) (pFactor 5 q.den) / q.den))
          (max (pFactor 2 q.den) (pFactor 5 q.den)) := by
  rw [serialize_number, if_neg h0]
  simp only [if_pos (Nat.dvd_iff_mod_eq_zero.mp (den_dvd_of_printable q hp))]

theorem serialize_M_ne_zero (q : ℚ) (hp : number_printable q = true) (h0 : q ≠ 0) :
    q.num.natAbs * (10 ^ max (pFactor 2 q.den) (pFactor 5 q.den) / q.den) ≠ 0 := by
  have hnum : q.num.natAbs ≠ 0 := by
    simp only [ne_eq, Int.natAbs_eq_zero]
    exact fun h => h0 (by rwa [Rat.num_eq_zero] at h)
  have hdiv : 0 < 10 ^ max (pFactor 2 q.den) (pFactor 5 q.den) / q.den :=
    Nat.div_pos (Nat.le_of_dvd (Nat.pos_pow_of_pos _ (by omega))
      (den_dvd_of_printable q hp)) q.pos
  positivity

theorem is_decimal_serialize (q : ℚ) (hp : number_printable q = true) :
    is_decimal (serialize_number q) = true := by
  by_cases h0 : q = 0
  · subst h0
    decide
  · rw [serialize_number_eq q hp h0]
    rcases dwp_shape _ (max (pFactor 2 q.den) (pFactor 5 q.den))
        (serialize_M_ne_zero q hp h0) with ⟨t, ht⟩ | ⟨b, t, hbt, hdig, h48⟩
    · rw [ht]
      by_cases hneg : q.num < 0
      · rw [if_pos hneg, List.singleton_append, is_decimal_45_48_46]
        have := dwp_no_hex (q.num.natAbs * (10 ^ max (pFactor 2 q.den) (pFactor 5 q.den)
          / q.den)) (max (pFactor 2 q.den) (pFactor 5 q.den))
        rw [ht] at this
        simp only [List.any_cons] at this ⊢
        simp only [this]
        decide
      · rw [if_neg hneg, List.nil_append, is_decimal_48_46]
        have := dwp_no_hex (q.num.natAbs * (10 ^ max (pFactor 2 q.den) (pFactor 5 q.den)
          / q.den)) (max (pFactor 2 q.den) (pFactor 5 q.den))
        rw [ht] at this
        simp [this]
    · rw [hbt]
      have hnh := dwp_no_hex (q.num.natAbs * (10 ^ max (pFactor 2 q.den) (pFactor 5 q.den)
        / q.den)) (max (pFactor 2 q.den) (pFactor 5 q.den))
      rw [hbt] at hnh
      have hd : 48 ≤ b ∧ b ≤ 57 := by
        simpa [is_digit_byte] using hdig
      by_cases hneg : q.num < 0
      · rw [if_pos hneg, List.singleton_append, is_decimal_45 t h48]
        simp only [List.any_cons] at hnh ⊢
        simp only [hnh]
        decide
      · rw [if_neg hneg, List.nil_append, is_decimal_catch t h48 (by omega)]
        simp [hnh]

theorem parse_number_render (q : ℚ) (hp : number_printable q = true)
    (rest : List Nat) (hb : numBoundary rest) :
    parse_number_value (serialize_number q ++ rest) = some (.number q, rest) := by
  simp only [parse_number_value, strtod_serialize_number q hp rest hb,
    is_decimal_serialize q hp, not_true, if_neg, List.drop_left]
  simp [List.drop_left]

/-! Serialized strings scan and unescape back to themselves. -/

theorem cstr_eq_self {s : List Nat} (hs : s.all (fun b => b ≠ 0) = true) : cstr s = s := by
  rw [cstr, List.takeWhile_eq_self_iff]
  intro b hb
  exact (List.all_eq_true.mp hs) b hb

theorem sqs_plain {b : Nat} (h34 : b ≠ 34) (h92 : b ≠ 92) (X : List Nat) :
    skip_quotes_scan (b :: X) = (fun p => (b :: p.1, p.2)) <$> skip_quotes_scan X := by
  rw [skip_quotes_scan.eq_def]
  split
  · rename_i heq
    exact absurd heq (by simp)
  · rename_i heq
    injection heq with h1 _
    exact absurd h1 h34
  · rename_i heq
    injection heq with h1 _
    exact absurd h1 h92
  · rename_i heq
    injection heq with h1 _
    exact absurd h1 h92
  · rename_i c rest heq
    injection heq with h1 h2
    subst h1
    subst h2
    rfl

theorem sqs_u (h1 h2 : Nat) (hh1 : h1 ≠ 34 ∧ h1 ≠ 92) (hh2 : h2 ≠ 34 ∧ h2 ≠ 92)
    (X : List Nat) :
    skip_quotes_scan ([92, 117, 48, 48, h1, h2] ++ X)
      = (fun p => ([92, 117, 48, 48, h1, h2] ++ p.1, p.2)) <$> skip_quotes_scan X := by
  rw [show skip_quotes_scan ([92, 117, 48, 48, h1, h2] ++ X)
        = (fun p => (92 :: 117 :: p.1, p.2)) <$> skip_quotes_scan (48 :: 48 :: h1 :: h2 :: X)
      from rfl]
  rw [sqs_plain (by omega) (by omega), sqs_plain (by omega) (by omega),
    sqs_plain hh1.1 hh1.2, sqs_plain hh2.1 hh2.2]
  cases skip_quotes_scan X <;> rfl

theorem sqs_escape (esc : Bool) (c : Nat) (X : List Nat) :
    skip_quotes_scan (serialize_string_char esc c ++ X)
      = (fun p => (serialize_string_char esc c ++ p.1, p.2)) <$> skip_quotes_scan X := by
  by_cases h32 : c < 32
  · by_cases he : c = 8 ∨ c = 12 ∨ c = 10 ∨ c = 13 ∨ c = 9
    · rcases he with rfl | rfl | rfl | rfl | rfl <;> rfl
    · push_neg at he
      obtain ⟨h8, h12, h10, h13, h9⟩ := he
      have hfrag : serialize_string_char esc c
          = [92, 117, 48, 48, 48 + c / 16,
              if c % 16 < 10 then 48 + c % 16 else 87 + c % 16] := by
        rw [serialize_string_char]
        simp only [if_neg (show ¬ c = 34 by omega), if_neg (show ¬ c = 92 by omega),
          if_neg h8, if_neg h12, if_neg h10, if_neg h13, if_neg h9, if_pos h32]
      rw [hfrag, sqs_u _ _ (by constructor <;> omega)
        (by constructor <;> (split <;> omega)) X]
  · by_cases h34 : c = 34
    · subst h34
      rfl
    · by_cases h92 : c = 92
      · subst h92
        rfl
      · by_cases h47 : c = 47
        · subst h47
          cases esc
          · rw [show serialize_string_char false 47 = [47] from rfl, List.singleton_append]
            exact sqs_plain (by omega) (by omega) X
          · rfl
        · have hfrag : serialize_string_char esc c = [c] := by
            rw [serialize_string_char]
            simp only [if_neg h34, if_neg h92, if_neg (show ¬ c = 8 by omega),
              if_neg (show ¬ c = 12 by omega), if_neg (show ¬ c = 10 by omega),
              if_neg (show ¬ c = 13 by omega), if_neg (show ¬ c = 9 by omega),
              if_neg h32, if_neg h47]
          rw [hfrag, List.singleton_append]
          exact sqs_plain h34 h92 X

theorem sqs_body (esc : Bool) (s : List Nat) (rest : List Nat) :
    skip_quotes_scan (s.flatMap (serialize_string_char esc) ++ (34 :: rest))
      = some (s.flatMap (serialize_string_char esc), rest) := by
  induction s with
  | nil => rfl
  | cons c t ih =>
    rw [List.flatMap_cons, List.append_assoc, sqs_escape, ih]
    rfl

set_option maxHeartbeats 1000000 in
theorem psr_plain {b : Nat} (h32 : ¬ b < 32) (h92 : b ≠ 92) (X : List Nat) :
    process_string_raw (b :: X) = (b :: ·) <$> process_string_raw X := by
  rw [process_string_raw.eq_def]
  split
  · rename_i heq
    exact absurd heq (by simp)
  · rename_i heq
    injection heq with h1 _
    exact absurd h1 h92
  · rename_i heq
    injection heq with h1 _
    exact absurd h1 h92
  · rename_i c rest heq
    injection heq with h1 h2
    subst h1
    subst h2
    rw [if_neg h32, if_neg h92]

theorem psr_u (c : Nat) (h32 : c < 32) (X : List Nat) :
    process_string_raw ([92, 117, 48, 48, 48 + c / 16,
        if c % 16 < 10 then 48 + c % 16 else 87 + c % 16] ++ X)
      = (c :: ·) <$> process_string_raw X := by
  have h1v : hex_char_to_int (48 + c / 16) = ((c / 16 : Nat) : Int) := by
    rw [hex_char_to_int, if_pos (by constructor <;> omega)]
    omega
  have h2v : hex_char_to_int (if c % 16 < 10 then 48 + c % 16 else 87 + c % 16)
      = ((c % 16 : Nat) : Int) := by
    split
    · rw [hex_char_to_int, if_pos (by constructor <;> omega)]
      omega
    · rw [hex_char_to_int, if_neg (by omega), if_pos (by constructor <;> omega)]
      omega
  have hhex : parse_utf16_hex 48 48 (48 + c / 16)
      (if c % 16 < 10 then 48 + c % 16 else 87 + c % 16) = some c := by
    rw [parse_utf16_hex]
    simp only [h1v, h2v, show hex_char_to_int 48 = 0 from rfl]
    rw [if_neg (by omega)]
    congr 1
    omega
  simp only [List.cons_append, List.nil_append, process_string_raw, hhex]
  rw [if_pos (Or.inl (by omega)),
    show utf8Bytes3 c = [c] from by rw [utf8Bytes3, if_pos (by omega)]]
  cases process_string_raw X <;> rfl

theorem psr_frag (esc : Bool) (c : Nat) (X : List Nat) :
    process_string_raw (serialize_string_char esc c ++ X)
      = (c :: ·) <$> process_string_raw X := by
  by_cases h32 : c < 32
  · by_cases he : c = 8 ∨ c = 12 ∨ c = 10 ∨ c = 13 ∨ c = 9
    · rcases he with rfl | rfl | rfl | rfl | rfl <;> rfl
    · push_neg at he
      obtain ⟨h8, h12, h10, h13, h9⟩ := he
      have hfrag : serialize_string_char esc c
          = [92, 117, 48, 48, 48 + c / 16,
              if c % 16 < 10 then 48 + c % 16 else 87 + c % 16] := by
        rw [serialize_string_char]
        simp only [if_neg (show ¬ c = 34 by omega), if_neg (show ¬ c = 92 by omega),
          if_neg h8, if_neg h12, if_neg h10, if_neg h13, if_neg h9, if_pos h32]
      rw [hfrag, psr_u c h32 X]
  · by_cases h34 : c = 34
    · subst h34
      rfl
    · by_cases h92 : c = 92
      · subst h92
        rfl
      · by_cases h47 : c = 47
        · subst h47
          cases esc
          · rw [show serialize_string_char false 47 = [47] from rfl, List.singleton_append]
            exact psr_plain (by omega) (by omega) X
          · rfl
        · have hfrag : serialize_string_char esc c = [c] := by
            rw [serialize_string_char]
            simp only [if_neg h34, if_neg h92, if_neg (show ¬ c = 8 by omega),
              if_neg (show ¬ c = 12 by omega), if_neg (show ¬ c = 10 by omega),
              if_neg (show ¬ c = 13 by omega), if_neg (show ¬ c = 9 by omega),
              if_neg h32, if_neg h47]
          rw [hfrag, List.singleton_append]
          exact psr_plain h32 h92 X

theorem psr_body (esc : Bool) (s : List Nat) :
    process_string_raw (s.flatMap (serialize_string_char esc)) = some s := by
  induction s with
  | nil => rfl
  | cons c t ih =>
    rw [List.flatMap_cons, psr_frag, ih]
    rfl

theorem parse_string_render (s rest : List Nat) (hs : s.all (fun b => b ≠ 0) = true) :
    parse_string_value (render (.string s) ++ rest) = some (.string s, rest) := by
  have hc : cstr s = s := cstr_eq_self hs
  rw [render, hc]
  have hshape :
      ([34] ++ s.flatMap (serialize_string_char parson_escape_slashes) ++ [34]) ++ rest
        = 34 :: (s.flatMap (serialize_string_char parson_escape_slashes) ++ (34 :: rest)) := by
    simp
  rw [hshape, parse_string_value, get_quoted_string]
  simp only [sqs_body, process_string, psr_body, Option.map_some, hc]
  simp [hc]

/-! The compact writing pass emits exactly the `render` bytes. -/

theorem serialize_string_go_render (esc : Bool) (l : List Nat) :
    serialize_string_go true esc l
      = ((l.flatMap (serialize_string_char esc)).length,
          l.flatMap (serialize_string_char esc)) := by
  induction l with
  | nil => rfl
  | cons c t ih =>
    rw [serialize_string_go, ih]
    simp [sAppend, List.flatMap_cons]

theorem json_serialize_string_render (s : List Nat) :
    json_serialize_string true s
      = ((render (JValue.string s)).length, render (JValue.string s)) := by
  rw [json_serialize_string, serialize_string_go_render, render]
  simp [sAppend, append_string, cstrlen, cstr]
  omega

theorem getn_self (pairs : List (List Nat × JValue)) (hnd : (pairs.map Prod.fst).Nodup) :
    ∀ p ∈ pairs, json_object_getn_value pairs p.1 = some p.2 := by
  intro p hp
  rw [json_object_getn_value, find?_key_eq_of_mem hnd hp p.1 rfl]
  rfl

mutual

theorem bufr_render :
    ∀ (f l : Nat) (v : JValue), jsz v ≤ f → json_wf v = true →
      json_serialize_to_buffer_r f true false l v
        = some ((render v).length, render v)
  | 0, _, v, hf, _ => by
    have := jsz_pos v
    omega
  | f + 1, l, v, hf, hwf => by
    match v with
    | .null => rfl
    | .boolean true => rfl
    | .boolean false => rfl
    | .number q => rfl
    | .string s =>
      rw [json_serialize_to_buffer_r, json_serialize_string_render]
    | .array items =>
      have hfa : jszArr items ≤ f := by
        rw [show jsz (JValue.array items) = 1 + jszArr items from rfl] at hf
        omega
      have hwa : json_wf_arr items = true := by
        rw [json_wf] at hwf
        exact hwf
      rw [json_serialize_to_buffer_r, items_render f l items hfa hwa]
      simp only [Bool.and_false, Bool.false_eq_true, if_false, render]
      simp [sAppend, append_string, cstrlen, cstr]
      omega
    | .object pairs =>
      have hfo : jszObj pairs ≤ f := by
        rw [show jsz (JValue.object pairs) = 1 + jszObj pairs from rfl] at hf
        omega
      rw [json_wf, Bool.and_eq_true, decide_eq_true_eq] at hwf
      have hlook := getn_self pairs hwf.1
      rw [json_serialize_to_buffer_r, members_render f l pairs pairs hfo hwf.2 hlook]
      simp only [Bool.and_false, Bool.false_eq_true, if_false, render]
      simp [sAppend, append_string, cstrlen, cstr]
      omega

theorem items_render :
    ∀ (f l : Nat) (items : List JValue), jszArr items ≤ f → json_wf_arr items = true →
      serialize_array_items f true false l items
        = some ((renderItems items).length, renderItems items)
  | 0, _, items, hf, _ => by
    have : 1 ≤ jszArr items := by
      cases items <;> simp [jszArr] <;> omega
    omega
  | f + 1, l, items, hf, hwf => by
    match items with
    | [] => rfl
    | v :: rest =>
      have hfv : jsz v ≤ f := by
        rw [show jszArr (v :: rest) = 1 + jsz v + jszArr rest from rfl] at hf
        omega
      have hfr : jszArr rest ≤ f := by
        rw [show jszArr (v :: rest) = 1 + jsz v + jszArr rest from rfl] at hf
        have := jsz_pos v
        omega
      rw [json_wf_arr, Bool.and_eq_true] at hwf
      rw [serialize_array_items, bufr_render f (l + 1) v hfv hwf.1,
        items_render f l rest hfr hwf.2]
      simp only [Bool.false_eq_true, if_false, renderItems]
      cases rest with
      | nil => simp [sAppend, append_string, cstrlen, cstr, renderItems]
      | cons w rest2 =>
        simp [sAppend, append_string, cstrlen, cstr]
        omega

theorem members_render :
    ∀ (f l : Nat) (allPairs remaining : List (List Nat × JValue)),
      jszObj remaining ≤ f → json_wf_obj remaining = true →
      (∀ p ∈ remaining, json_object_getn_value allPairs p.1 = some p.2) →
      serialize_object_members f true false l allPairs remaining
        = some ((renderMembers remaining).length, renderMembers remaining)
  | 0, _, _, remaining, hf, _, _ => by
    have : 1 ≤ jszObj remaining := by
      cases remaining with
      | nil => simp [jszObj]
      | cons p rest =>
        match p with
        | (k, v) => simp [jszObj]; omega
    omega
  | f + 1, l, allPairs, remaining, hf, hwf, hlook => by
    match remaining with
    | [] => rfl
    | (k, v) :: rest =>
      have hfv : jsz v ≤ f := by
        rw [show jszObj ((k, v) :: rest) = 1 + jsz v + jszObj rest from rfl] at hf
        omega
      have hfr : jszObj rest ≤ f := by
        rw [show jszObj ((k, v) :: rest) = 1 + jsz v + jszObj rest from rfl] at hf
        have := jsz_pos v
        omega
      rw [json_wf_obj, Bool.and_eq_true, Bool.and_eq_true] at hwf
      obtain ⟨⟨hk, hv⟩, hrest⟩ := hwf
      have hget : json_object_getn_value allPairs k = some v :=
        hlook (k, v) (List.mem_cons_self _ _)
      have hlook2 : ∀ p ∈ rest, json_object_getn_value allPairs p.1 = some p.2 :=
        fun p hp => hlook p (List.mem_cons_of_mem _ hp)
      rw [serialize_object_members, hget]
      simp only []
      rw [json_serialize_string_render, bufr_render f (l + 1) v hfv hv,
        members_render f l allPairs rest hfr hrest hlook2]
      simp only [Bool.false_eq_true, if_false, renderMembers, render]
      cases rest with
      | nil =>
        simp [sAppend, append_string, cstrlen, cstr, renderMembers]
        omega
      | cons p rest2 =>
        simp [sAppend, append_string, cstrlen, cstr]
        omega

end

/-! Heads and boundaries of rendered values. -/

theorem nestNeed_pos (v : JValue) : 1 ≤ nestNeed v := by
  cases v <;> simp [nestNeed]

theorem nestNeedArr_mem : ∀ (items : List JValue), ∀ v ∈ items, nestNeed v ≤ nestNeedArr items := by
  intro items
  induction items with
  | nil => intro v hv; simp at hv
  | cons w rest ih =>
    intro v hv
    rcases List.mem_cons.mp hv with rfl | hv2
    · exact le_trans (le_refl _) (le_max_left _ _)
    · exact le_trans (ih v hv2) (le_max_right _ _)

theorem nestNeedObj_mem : ∀ (pairs : List (List Nat × JValue)), ∀ p ∈ pairs,
    nestNeed p.2 ≤ nestNeedObj pairs := by
  intro pairs
  induction pairs with
  | nil => intro p hp; simp at hp
  | cons q rest ih =>
    intro p hp
    rcases List.mem_cons.mp hp with rfl | hp2
    · rw [show nestNeedObj (p :: rest) = max (nestNeed p.2) (nestNeedObj rest) from by
        rcases p with ⟨k, v⟩; rfl]
      exact le_max_left _ _
    · rw [show nestNeedObj (q :: rest) = max (nestNeed q.2) (nestNeedObj rest) from by
        rcases q with ⟨k, v⟩; rfl]
      exact le_trans (ih p hp2) (le_max_right _ _)

theorem skipws_cons {b : Nat} (h : is_space_byte b = false) (X : List Nat) :
    skip_whitespaces (b :: X) = b :: X := by
  rw [skip_whitespaces, List.dropWhile_cons_of_neg (by simp [h])]

theorem serialize_number_head (q : ℚ) :
    ∃ b t, serialize_number q = b :: t ∧ (b = 45 ∨ (48 ≤ b ∧ b ≤ 57)) := by
  rw [serialize_number]
  by_cases h0 : q = 0
  · exact ⟨48, [], by rw [if_pos h0], Or.inr (by omega)⟩
  · rw [if_neg h0]
    simp only []
    by_cases hneg : q.num < 0
    · rw [if_pos hneg]
      split
      · exact ⟨45, _, by rw [List.singleton_append], Or.inl rfl⟩
      · exact ⟨45, _, by rw [List.singleton_append], Or.inl rfl⟩
    · rw [if_neg hneg]
      split
      · obtain ⟨b, t, hbt, hdig⟩ := dwp_head (q.num.natAbs *
          (10 ^ max (pFactor 2 q.den) (pFactor 5 q.den) / q.den))
          (max (pFactor 2 q.den) (pFactor 5 q.den))
        refine ⟨b, t, by rw [List.nil_append, hbt], Or.inr ?_⟩
        simpa [is_digit_byte] using hdig
      · obtain ⟨b, t, hbt, hdig⟩ := dwp_head ((|q| * 10 ^ 30).floor.natAbs) 30
        refine ⟨b, t, by rw [List.nil_append, hbt], Or.inr ?_⟩
        simpa [is_digit_byte] using hdig

theorem render_head (v : JValue) :
    ∃ b t, render v = b :: t ∧
      (b = 110 ∨ b = 116 ∨ b = 102 ∨ b = 34 ∨ b = 91 ∨ b = 123 ∨ b = 45 ∨
        (48 ≤ b ∧ b ≤ 57)) := by
  cases v with
  | null => exact ⟨110, _, rfl, Or.inl rfl⟩
  | boolean b =>
    cases b
    · exact ⟨102, _, rfl, by tauto⟩
    · exact ⟨116, _, rfl, by tauto⟩
  | number q =>
    obtain ⟨b, t, hbt, hd⟩ := serialize_number_head q
    exact ⟨b, t, by rw [render, hbt], by tauto⟩
  | string s =>
    exact ⟨34, (cstr s).flatMap (serialize_string_char parson_escape_slashes) ++ [34],
      by rw [render]; simp, by tauto⟩
  | array items =>
    exact ⟨91, renderItems items ++ [93], by rw [render]; simp, by tauto⟩
  | object pairs =>
    exact ⟨123, renderMembers pairs ++ [125], by rw [render]; simp, by tauto⟩

theorem find?_key_none {acc : List (List Nat × JValue)} {k : List Nat}
    (h : k ∉ acc.map Prod.fst) : (acc.find? fun p => p.1 = k) = none := by
  rw [List.find?_eq_none]
  intro p hp
  simp only [decide_eq_true_eq]
  intro hk
  exact h (hk ▸ List.mem_map_of_mem _ hp)

theorem render_head_not_space (v : JValue) :
    ∃ b t, render v = b :: t ∧ is_space_byte b = false ∧ b ≠ 93 ∧ b ≠ 125 ∧ b ≠ 44 ∧
      b ≠ 239 := by
  obtain ⟨b, t, hbt, hd⟩ := render_head v
  refine ⟨b, t, hbt, ?_, ?_, ?_, ?_, ?_⟩ <;>
    rcases hd with rfl | rfl | rfl | rfl | rfl | rfl | rfl | hd <;>
      first
        | decide
        | (simp only [is_space_byte, Bool.or_eq_false_iff, Bool.and_eq_false_iff,
            decide_eq_false_iff_not]; omega)
        | omega

theorem jszArr_pos (items : List JValue) : 1 ≤ jszArr items := by
  cases items with
  | nil => simp [jszArr]
  | cons v rest =>
    rw [show jszArr (v :: rest) = 1 + jsz v + jszArr rest from rfl]
    omega

theorem skipws_renderItems (v : JValue) (rest2 : List JValue) (X : List Nat) :
    skip_whitespaces (renderItems (v :: rest2) ++ X) = renderItems (v :: rest2) ++ X := by
  obtain ⟨b, bt, hbt, hsp, _, _, _, _⟩ := render_head_not_space v
  rw [renderItems, hbt]
  simp only [List.cons_append, List.append_assoc]
  exact skipws_cons hsp _

theorem skipws_renderMembers (k : List Nat) (v : JValue)
    (rest2 : List (List Nat × JValue)) (X : List Nat) :
    skip_whitespaces (renderMembers ((k, v) :: rest2) ++ X)
      = renderMembers ((k, v) :: rest2) ++ X := by
  rw [renderMembers]
  simp only [List.cons_append, List.append_assoc, List.singleton_append]
  exact skipws_cons (by decide) _

theorem renderMembers_shape (k : List Nat) (v : JValue)
    (rest2 : List (List Nat × JValue)) (X : List Nat) :
    renderMembers ((k, v) :: rest2) ++ X
      = 34 :: ((cstr k).flatMap (serialize_string_char parson_escape_slashes)
          ++ (34 :: (58 :: (render v
          ++ ((if rest2.isEmpty then [] else [44]) ++ (renderMembers rest2 ++ X)))))) := by
  rw [renderMembers]
  simp

mutual

theorem rt_value :
    ∀ (f n : Nat) (v : JValue) (rest : List Nat),
      json_wf v = true → jsz v ≤ f → n + nestNeed v ≤ MAX_NESTING + 1 →
      numBoundary rest →
      parse_value f (render v ++ rest) n = some (v, rest)
  | 0, n, v, rest, hwf, hf, hn, hb => by
    have := jsz_pos v
    omega
  | f + 1, n, v, rest, hwf, hf, hn, hb => by
    have hnle : ¬ n > MAX_NESTING := by
      have := nestNeed_pos v
      simp only [MAX_NESTING] at hn ⊢
      omega
    match v with
    | .null =>
      rw [parse_value, if_neg hnle]
      rfl
    | .boolean true =>
      rw [parse_value, if_neg hnle]
      rfl
    | .boolean false =>
      rw [parse_value, if_neg hnle]
      rfl
    | .number q =>
      obtain ⟨b, t, hbt, hd⟩ := serialize_number_head q
      have hsh : render (JValue.number q) ++ rest = b :: (t ++ rest) := by
        rw [render, hbt, List.cons_append]
      rw [parse_value, if_neg hnle, hsh, skipws_cons (by
        simp only [is_space_byte, Bool.or_eq_false_iff, Bool.and_eq_false_iff,
          decide_eq_false_iff_not]
        omega)]
      simp only []
      rw [if_neg (by omega), if_neg (by omega), if_neg (by omega), if_neg (by omega),
        if_pos hd, ← List.cons_append, ← hbt]
      have hp : number_printable q = true := by
        rw [json_wf] at hwf
        exact hwf
      exact parse_number_render q hp rest hb
    | .string s =>
      have hs : s.all (fun b => b ≠ 0) = true := by
        rw [json_wf] at hwf
        exact hwf
      have hsh : render (JValue.string s) ++ rest
          = 34 :: ((cstr s).flatMap (serialize_string_char parson_escape_slashes)
              ++ (34 :: rest)) := by
        rw [render]
        simp
      rw [parse_value, if_neg hnle, hsh, skipws_cons (by decide)]
      simp only []
      rw [if_neg (by decide), if_neg (by decide), if_pos trivial, ← hsh]
      exact parse_string_render s rest hs
    | .array items =>
      match items with
      | [] =>
        rw [parse_value, if_neg hnle]
        rfl
      | v1 :: rest2 =>
        have hwa : json_wf_arr (v1 :: rest2) = true := by
          rw [json_wf] at hwf
          exact hwf
        have hfa : jszArr (v1 :: rest2) ≤ f := by
          rw [show jsz (JValue.array (v1 :: rest2)) = 1 + jszArr (v1 :: rest2) from rfl] at hf
          omega
        have hnest : ∀ w ∈ (v1 :: rest2), (n + 1) + nestNeed w ≤ MAX_NESTING + 1 := by
          intro w hw
          have h1 := nestNeedArr_mem (v1 :: rest2) w hw
          rw [show nestNeed (JValue.array (v1 :: rest2))
              = 1 + nestNeedArr (v1 :: rest2) from rfl] at hn
          omega
        have hsh : render (JValue.array (v1 :: rest2)) ++ rest
            = 91 :: (renderItems (v1 :: rest2) ++ (93 :: rest)) := by
          rw [render]
          simp
        rw [parse_value, if_neg hnle, hsh, skipws_cons (by decide)]
        simp only []
        rw [if_neg (by decide), if_pos trivial, skipws_renderItems v1 rest2 (93 :: rest)]
        split
        · rename_i r heq
          obtain ⟨b, bt, hbt, _, h93, _, _, _⟩ := render_head_not_space v1
          rw [renderItems, hbt] at heq
          simp only [List.cons_append, List.append_assoc] at heq
          injection heq with h1 _
          exact absurd h1 h93
        · rw [rt_items f (n + 1) [] (v1 :: rest2) rest (by simp) hwa hfa hnest]
          try simp only [List.nil_append]
          try rw [skipws_cons (by decide)]
          try rfl
    | .object pairs =>
      match pairs with
      | [] =>
        rw [parse_value, if_neg hnle]
        rfl
      | (k1, w1) :: rest2 =>
        rw [json_wf, Bool.and_eq_true, decide_eq_true_eq] at hwf
        have hfo : jszObj ((k1, w1) :: rest2) ≤ f := by
          rw [show jsz (JValue.object ((k1, w1) :: rest2))
              = 1 + jszObj ((k1, w1) :: rest2) from rfl] at hf
          omega
        have hnest : ∀ p ∈ ((k1, w1) :: rest2), n + 1 + nestNeed p.2 ≤ MAX_NESTING + 1 := by
          intro p hp
          have h1 := nestNeedObj_mem ((k1, w1) :: rest2) p hp
          rw [show nestNeed (JValue.object ((k1, w1) :: rest2))
              = 1 + nestNeedObj ((k1, w1) :: rest2) from rfl] at hn
          omega
        have hsh : render (JValue.object ((k1, w1) :: rest2)) ++ rest
            = 123 :: (renderMembers ((k1, w1) :: rest2) ++ (125 :: rest)) := by
          rw [render]
          simp
        rw [parse_value, if_neg hnle, hsh, skipws_cons (by decide)]
        simp only []
        rw [if_pos trivial, skipws_renderMembers k1 w1 rest2 (125 :: rest)]
        split
        · rename_i r heq
          rw [renderMembers_shape] at heq
          injection heq with h1 _
          exact absurd h1 (by decide)
        · rw [rt_members f (n + 1) [] ((k1, w1) :: rest2) rest (by simp) hwf.2
            (by simpa using hwf.1) hfo hnest]
          try simp only [List.nil_append]
          try rw [skipws_cons (by decide)]
          try rfl

theorem rt_items :
    ∀ (f n : Nat) (acc items : List JValue) (after : List Nat),
      items ≠ [] → json_wf_arr items = true → jszArr items ≤ f →
      (∀ w ∈ items, n + nestNeed w ≤ MAX_NESTING + 1) →
      parse_array_items f acc (renderItems items ++ (93 :: after)) n
        = some (acc ++ items, 93 :: after)
  | 0, n, acc, items, after, hne, hwa, hfa, hnest => by
    have := jszArr_pos items
    omega
  | f + 1, n, acc, items, after, hne, hwa, hfa, hnest => by
    match items with
    | [] => exact absurd rfl hne
    | v :: rest2 =>
      rw [json_wf_arr, Bool.and_eq_true] at hwa
      have hfv : jsz v ≤ f := by
        rw [show jszArr (v :: rest2) = 1 + jsz v + jszArr rest2 from rfl] at hfa
        omega
      have hfr : jszArr rest2 ≤ f := by
        rw [show jszArr (v :: rest2) = 1 + jsz v + jszArr rest2 from rfl] at hfa
        have := jsz_pos v
        omega
      obtain ⟨b, bt, hbt, hsp, h93, h125, h44, _⟩ := render_head_not_space v
      match rest2 with
      | [] =>
        have hsh : renderItems [v] ++ (93 :: after) = render v ++ (93 :: after) := by
          rw [renderItems, renderItems]
          simp
        rw [parse_array_items, hsh, hbt, List.cons_append]
        simp only []
        rw [← List.cons_append, ← hbt,
          rt_value f n v (93 :: after) hwa.1 hfv (hnest v (List.mem_cons_self _ _))
            (numBoundary_rbracket after)]
        try simp only []
        try rw [skipws_cons (by decide)]
        try rfl
        all_goals simp [hsh]
      | w :: rest3 =>
        have hsh : renderItems (v :: w :: rest3) ++ (93 :: after)
            = render v ++ (44 :: (renderItems (w :: rest3) ++ (93 :: after))) := by
          rw [renderItems]
          simp
        rw [parse_array_items, hsh, hbt, List.cons_append]
        simp only []
        rw [← List.cons_append, ← hbt,
          rt_value f n v (44 :: (renderItems (w :: rest3) ++ (93 :: after))) hwa.1 hfv
            (hnest v (List.mem_cons_self _ _)) (numBoundary_comma _)]
        try simp only []
        try rw [skipws_cons (by decide)]
        try simp only []
        try rw [skipws_renderItems w rest3 (93 :: after),
          rt_items f n (acc ++ [v]) (w :: rest3) after (by simp) hwa.2 hfr
            (fun w' hw' => hnest w' (List.mem_cons_of_mem _ hw'))]
        try simp
        all_goals simp [hsh]

theorem rt_members :
    ∀ (f n : Nat) (acc pairs : List (List Nat × JValue)) (after : List Nat),
      pairs ≠ [] → json_wf_obj pairs = true →
      ((acc ++ pairs).map Prod.fst).Nodup →
      jszObj pairs ≤ f →
      (∀ p ∈ pairs, n + nestNeed p.2 ≤ MAX_NESTING + 1) →
      parse_object_members f acc (renderMembers pairs ++ (125 :: after)) n
        = some (acc ++ pairs, 125 :: after)
  | 0, n, acc, pairs, after, hne, hwo, hnd, hfo, hnest => by
    have := jszObj_pos pairs
    omega
  | f + 1, n, acc, pairs, after, hne, hwo, hnd, hfo, hnest => by
    match pairs with
    | [] => exact absurd rfl hne
    | (k, v) :: rest2 =>
      rw [json_wf_obj, Bool.and_eq_true, Bool.and_eq_true] at hwo
      obtain ⟨⟨hk, hv⟩, hrest⟩ := hwo
      have hck : cstr k = k := cstr_eq_self hk
      have hfv : jsz v ≤ f := by
        rw [show jszObj ((k, v) :: rest2) = 1 + jsz v + jszObj rest2 from rfl] at hfo
        omega
      have hfr : jszObj rest2 ≤ f := by
        rw [show jszObj ((k, v) :: rest2) = 1 + jsz v + jszObj rest2 from rfl] at hfo
        have := jsz_pos v
        omega
      have hknotacc : k ∉ acc.map Prod.fst := by
        intro hmem
        rw [List.map_append, List.nodup_append] at hnd
        exact hnd.2.2 hmem (by simp)
      rw [parse_object_members, renderMembers_shape]
      simp only []
      rw [get_quoted_string, hck, sqs_body]
      simp only [process_string, psr_body, hck]
      rw [show Option.map cstr (some k) = some k from by simp [hck]]
      simp only []
      rw [skipws_cons (by decide)]
      simp only []
      rw [rt_value f n v _ hv hfv (hnest (k, v) (List.mem_cons_self _ _)) (by
        match rest2 with
        | [] => exact numBoundary_rbrace after
        | p :: rest3 => exact numBoundary_comma _)]
      simp only []
      rw [find?_key_none hknotacc]
      simp only [Option.isSome_none, Bool.false_eq_true, if_false]
      match rest2 with
      | [] =>
        try simp only [List.isEmpty_nil, if_true, renderMembers, List.nil_append]
        try rw [skipws_cons (by decide)]
        try rfl
      | (k2, v2) :: rest3 =>
        try simp only [List.isEmpty_cons, Bool.false_eq_true, if_false,
          List.cons_append, List.singleton_append]
        try rw [skipws_cons (by decide)]
        try simp only []
        try simp only [List.nil_append]
        rw [skipws_renderMembers k2 v2 rest3 (125 :: after)]
        rw [rt_members f n (acc ++ [(k, v)]) ((k2, v2) :: rest3) after (by simp) hrest
            (by simpa using hnd) hfr
            (fun p hp => hnest p (List.mem_cons_of_mem _ hp))]
        simp
      all_goals simp

end

/-! Top-level roundtrip. -/

theorem serialize_number_ne_nil (q : ℚ) : serialize_number q ≠ [] := by
  rw [serialize_number]
  by_cases h0 : q = 0
  · rw [if_pos h0]
    simp
  · rw [if_neg h0]
    simp only []
    split <;> simp [dwp_ne_nil]

mutual

theorem jsz_le_render : ∀ (v : JValue), jsz v ≤ 2 * (render v).length
  | .null => by decide
  | .boolean true => by decide
  | .boolean false => by decide
  | .number q => by
    have := serialize_number_ne_nil q
    rw [show jsz (JValue.number q) = 1 from rfl, show render (JValue.number q)
      = serialize_number q from rfl]
    cases h : serialize_number q with
    | nil => exact absurd h this
    | cons b t => simp; omega
  | .string s => by
    rw [show jsz (JValue.string s) = 1 from rfl, render]
    simp
    omega
  | .array items => by
    have h := jszArr_le_render items
    rw [show jsz (JValue.array items) = 1 + jszArr items from rfl, render]
    simp only [List.length_append, List.length_cons, List.length_nil]
    omega
  | .object pairs => by
    have h := jszObj_le_render pairs
    rw [show jsz (JValue.object pairs) = 1 + jszObj pairs from rfl, render]
    simp only [List.length_append, List.length_cons, List.length_nil]
    omega

theorem jszArr_le_render : ∀ (items : List JValue),
    jszArr items ≤ 2 * (renderItems items).length + 2
  | [] => by decide
  | v :: rest => by
    have h1 := jsz_le_render v
    have h2 := jszArr_le_render rest
    rw [show jszArr (v :: rest) = 1 + jsz v + jszArr rest from rfl, renderItems]
    cases rest with
    | nil =>
      rw [show renderItems ([] : List JValue) = [] from rfl] at h2 ⊢
      rw [show jszArr ([] : List JValue) = 1 from rfl]
      simp only [List.isEmpty_nil, if_true, List.append_nil, List.length_append,
        List.length_nil]
      omega
    | cons w rest2 =>
      simp only [List.isEmpty_cons, Bool.false_eq_true, if_false, List.length_append,
        List.length_cons, List.length_nil]
      omega

theorem jszObj_le_render : ∀ (pairs : List (List Nat × JValue)),
    jszObj pairs ≤ 2 * (renderMembers pairs).length + 2
  | [] => by decide
  | (k, v) :: rest => by
    have h1 := jsz_le_render v
    have h2 := jszObj_le_render rest
    rw [show jszObj ((k, v) :: rest) = 1 + jsz v + jszObj rest from rfl, renderMembers]
    cases rest with
    | nil =>
      rw [show renderMembers ([] : List (List Nat × JValue)) = [] from rfl] at h2 ⊢
      rw [show jszObj ([] : List (List Nat × JValue)) = 1 from rfl]
      simp only [List.isEmpty_nil, if_true, List.append_nil, List.length_append,
        List.length_nil, List.length_cons]
      omega
    | cons p rest2 =>
      simp only [List.isEmpty_cons, Bool.false_eq_true, if_false, List.length_append,
        List.length_cons, List.length_nil]
      omega

end

theorem serialize_render (v : JValue) (hwf : json_wf v = true) :
    json_serialize_to_string v = some (render v) := by
  rw [json_serialize_to_string, bufr_render (jsz v) 0 v (le_refl _) hwf]

theorem json_parse_render (v : JValue) (hwf : json_wf v = true)
    (hn : nestNeed v ≤ MAX_NESTING + 1) :
    json_parse_string (render v) = some v := by
  obtain ⟨b, t, hbt, _, _, _, _, h239⟩ := render_head_not_space v
  have hbom : ¬ (render v).take 3 = [239, 187, 191] := by
    rw [hbt]
    intro h
    cases t with
    | nil => simp at h
    | cons c t2 =>
      cases t2 with
      | nil => simp at h
      | cons d t3 =>
        simp only [List.take, List.cons.injEq] at h
        exact h239 h.1
  simp only [json_parse_string]
  rw [if_neg hbom]
  have h0 : parse_value (parse_fuel (render v)) (render v ++ []) 0 = some (v, []) :=
    rt_value _ 0 v [] hwf (by
      rw [parse_fuel]
      have := jsz_le_render v
      omega) (by simpa using hn) trivial
  rw [List.append_nil] at h0
  rw [h0]
  rfl

theorem render_deepArr : ∀ (k : Nat), render (deepArr k) = listNest (k + 1)
  | 0 => by decide
  | k + 1 => by
    rw [show deepArr (k + 1) = JValue.array [deepArr k] from rfl, render, renderItems,
      renderItems, render_deepArr k]
    have := listNest_succ (k + 1) []
    rw [List.append_nil] at this
    rw [this]
    simp

theorem json_wf_deepArr : ∀ (k : Nat), json_wf (deepArr k) = true
  | 0 => rfl
  | k + 1 => by
    rw [show deepArr (k + 1) = JValue.array [deepArr k] from rfl, json_wf, json_wf_arr,
      json_wf_deepArr k, json_wf_arr]
    rfl

/-- C1 (amended): for every API-reachable tree (unique NUL-free object keys,
NUL-free strings, double-representable numbers) whose values sit inside at
most MAX_NESTING + 1 = 2049 nested containers, compact serialization succeeds
and json_parse_string maps the output to a tree that json_value_equals
accepts as equal to the original (in fact the identical tree).  The depth
bound is necessary: see the counterexample. -/
theorem claim_C1_roundtrip (v : JValue) (hwf : json_wf v = true)
    (hnest : nestNeed v ≤ MAX_NESTING + 1) :
    ∃ bytes w, json_serialize_to_string v = some bytes ∧
      json_parse_string bytes = some w ∧ json_value_equals w v = true :=
  ⟨render v, v, serialize_render v hwf, json_parse_render v hwf hnest,
    json_value_equals_fuel_refl (jsz v) v (le_refl _)⟩

/-- C1 counterexample: 2049 nested arrays are a perfectly valid tree, their
serialization succeeds (the serializer has no depth limit), yet parsing the
serialized bytes back fails on the parser's nesting check, so
`parse(serialize(V)) equals V` does not hold for every valid tree. -/
theorem claim_C1_counterexample :
    json_wf (deepArr 2049) = true ∧
    json_serialize_to_string (deepArr 2049) = some (listNest 2050) ∧
    json_parse_string (listNest 2050) = none :=
  ⟨json_wf_deepArr 2049,
   by rw [serialize_render _ (json_wf_deepArr 2049), render_deepArr],
   json_parse_listNest_fail 2050 (by decide)⟩

/-- Witness: the amended C1 at a concrete object with a nested array,
number, string and boolean. -/
theorem claim_C1_witness :
    json_wf c1Value = true ∧ nestNeed c1Value ≤ MAX_NESTING + 1 ∧
      (∃ bytes w, json_serialize_to_string c1Value = some bytes ∧
        json_parse_string bytes = some w ∧ json_value_equals w c1Value = true) :=
  ⟨by decide, by decide, claim_C1_roundtrip c1Value (by decide) (by decide)⟩
